import Mathlib

/-!
GoReverseProxy: request and response rewriting.

A shallow embedding of the two hooks that `main.go` installs on the reverse
proxy (`proxy.Director` and `proxy.ModifyResponse`), of the string functions of
the Go standard library that they call, and of the body rewrite of `mvp.go`.

A Go string is a finite sequence of bytes.  The model carries one `Char` per
byte; every literal of the program is ASCII, and the string functions below
only compare elements for equality and count them, so `len` is the length of
the list.
-/

namespace GoReverseProxy

/-- A Go `string`: a finite sequence of bytes, one `Char` per byte. -/
abbrev GoString := List Char

/-- A Go `error` value, identified by its message. -/
abbrev Error := String

/-! ## Package `strings` -/

/-- Go `strings.HasPrefix(s, prefix)`. -/
def HasPrefix (s pre : GoString) : Bool := pre.isPrefixOf s

/-- Go `strings.TrimPrefix(s, prefix)`: `s` without the leading `prefix`, or `s`
itself when it does not start with `prefix`. -/
def TrimPrefix (s pre : GoString) : GoString :=
  if HasPrefix s pre then s.drop pre.length else s

/-- Go `strings.Index(s, substr)`: the index of the first instance of `substr`
in `s`; `none` stands for Go's `-1`. -/
def Index : GoString → GoString → Option Nat
  | [], sub => if sub.isPrefixOf [] then some 0 else none
  | c :: t, sub =>
    if sub.isPrefixOf (c :: t) then some 0 else (Index t sub).map (· + 1)

/-- Go `strings.Contains(s, substr)`, which is `Index(s, substr) >= 0`. -/
def Contains (s sub : GoString) : Bool := (Index s sub).isSome

/-- The loop of Go `strings.Replace` for a non-empty `old`: at most `n` times,
find the next instance of `old` from the current start, copy the text before
it, write `new`, and continue after the instance; then copy the rest. -/
def replaceLoop (old new : GoString) : Nat → GoString → GoString
  | 0, s => s
  | n + 1, s =>
    match Index s old with
    | none => s
    | some j => s.take j ++ new ++ replaceLoop old new n (s.drop (j + old.length))

/-- The loop of Go `strings.Replace` for an empty `old`, which matches at the
beginning of the string and after each element: at most `n` insertions. -/
def replaceEmptyLoop (new : GoString) : Nat → GoString → GoString
  | 0, s => s
  | _ + 1, [] => new
  | n + 1, c :: t => new ++ c :: replaceEmptyLoop new n t

/-- Go `strings.Replace(s, old, new, n)`: the first `n` non-overlapping
instances of `old` replaced by `new`, all of them when `n < 0`.  Go bounds the
number of rounds by `Count(s, old)`, which is at most `len(s) + 1`; the loop
stops at the first round that finds no instance, so that bound is used here. -/
def Replace (s old new : GoString) (n : Int) : GoString :=
  if old = new ∨ n = 0 then s
  else
    let k := if n < 0 then s.length + 1 else n.toNat
    if old = [] then replaceEmptyLoop new k s else replaceLoop old new k s

/-- Go `strings.ReplaceAll(s, old, new)`, which is `Replace(s, old, new, -1)`. -/
def ReplaceAll (s old new : GoString) : GoString := Replace s old new (-1)

/-- Go `strings.HasSuffix(s, suffix)`. -/
def HasSuffix (s suf : GoString) : Bool := suf.isSuffixOf s

/-! ## Package `strconv` -/

/-- Go `strconv.Itoa(i)`: the decimal text of `i`, with a sign when negative. -/
def Itoa (i : Int) : GoString :=
  if i < 0 then '-' :: Nat.toDigits 10 i.natAbs else Nat.toDigits 10 i.toNat

/-! ## Package `net/http`: headers, bodies, requests and responses -/

/-- Go `http.Header`, a `map[string][]string` keyed by canonical header names.
A key that is absent and a key with no values are both the empty list: `Get`
and `Values` do not tell them apart, and neither is written to the client. -/
abbrev Header := String → List GoString

/-- Go `Header.Get(key)`: the first value of `key`, or `""`. -/
def Header.Get (h : Header) (key : String) : GoString := (h key).headD []

/-- Go `Header.Values(key)`: all values of `key`. -/
def Header.Values (h : Header) (key : String) : List GoString := h key

/-- Go `Header.Set(key, value)`: `key` now has the single value `value`. -/
def Header.Set (h : Header) (key : String) (value : GoString) : Header :=
  fun k => if k = key then [value] else h k

/-- Go `Header.Add(key, value)`: `value` is appended to the values of `key`. -/
def Header.Add (h : Header) (key : String) (value : GoString) : Header :=
  fun k => if k = key then h k ++ [value] else h k

/-- Go `Header.Del(key)`: `key` has no values any more. -/
def Header.Del (h : Header) (key : String) : Header :=
  fun k => if k = key then [] else h k

/-- A response body (`io.ReadCloser`), described by what a complete read of it
yields: the bytes delivered, and the error that ends the read when the stream
fails (`none` when it ends with EOF). -/
structure ReadCloser where
  data : GoString
  err : Option Error
deriving DecidableEq, Repr

/-- Go `io.ReadAll(r)`: the bytes read until EOF or the first error, and that
error. -/
def ReadAll (r : ReadCloser) : GoString × Option Error := (r.data, r.err)

/-- Go `io.NopCloser(bytes.NewBufferString(s))`: a body that yields `s`. -/
def NopCloser (s : GoString) : ReadCloser := { data := s, err := none }

/-- The fields of Go `url.URL` that the proxy reads or writes. -/
structure URL where
  Scheme : GoString
  Host : GoString
  Path : GoString
  RawQuery : GoString
deriving DecidableEq, Repr

/-- The fields of Go `http.Request` that the proxy reads or writes; `Host` is
the value sent in the `Host` header of the outbound request. -/
structure Request where
  Method : GoString
  URL : URL
  Host : GoString
deriving DecidableEq, Repr

/-- The fields of Go `http.Response` that the proxy reads or writes. -/
structure Response where
  StatusCode : Int
  Header : Header
  Body : ReadCloser
  ContentLength : Int

/-! ## `main.go`: configuration -/

/-- The constant `basePath` of `main.go`. -/
def basePath : GoString := "/hemanta/proxy".toList

/-- The constant `masterHost` of `main.go`. -/
def masterHost : GoString := "www.mydomain.com".toList

/-- The constant `targetURLStr` of `main.go`. -/
def targetURLStr : GoString := "https://vritjobs.com/".toList

/-- The value `targetURL` of `main.go`: what `url.Parse` returns for
`targetURLStr`. -/
def targetURL : URL :=
  { Scheme := "https".toList, Host := "vritjobs.com".toList, Path := "/".toList, RawQuery := [] }

/-- The local `upPrefix` of `ModifyResponse`: `targetURL.Scheme + "://" + targetURL.Host`. -/
def upPrefix : GoString := targetURL.Scheme ++ "://".toList ++ targetURL.Host

/-- The local `masterPrefix` of `ModifyResponse`: `"https://" + masterHost`. -/
def masterPrefix : GoString := "https://".toList ++ masterHost

/-! ## `main.go`: the request hook -/

/-- Go `singleJoiningSlash(a, b)` of `net/http/httputil`. -/
def singleJoiningSlash (a b : GoString) : GoString :=
  let aslash := HasSuffix a "/".toList
  let bslash := HasPrefix b "/".toList
  if aslash && bslash then a ++ b.drop 1
  else if !aslash && !bslash then a ++ "/".toList ++ b
  else a ++ b

/-- The director that `httputil.NewSingleHostReverseProxy(targetURL)` installs
(`origDirector` in `main.go`): scheme and host of the target, the target path
joined with the request path, and the target query joined with the request
query. -/
def origDirector (req : Request) : Request :=
  let targetQuery := targetURL.RawQuery
  { req with
    URL :=
      { Scheme := targetURL.Scheme
        Host := targetURL.Host
        Path := singleJoiningSlash targetURL.Path req.URL.Path
        RawQuery :=
          if targetQuery = [] ∨ req.URL.RawQuery = [] then targetQuery ++ req.URL.RawQuery
          else targetQuery ++ "&".toList ++ req.URL.RawQuery } }

/-- The function assigned to `proxy.Director` in `main.go`. -/
def Director (req : Request) : Request :=
  let strippedPath := TrimPrefix req.URL.Path basePath
  let strippedPath := if strippedPath = [] then "/".toList else strippedPath
  let req := origDirector req
  { req with
    URL := { req.URL with Scheme := targetURL.Scheme, Host := targetURL.Host, Path := strippedPath }
    Host := targetURL.Host }

/-! ## `main.go`: the response hook -/

/-- Step 1 of `ModifyResponse`, the value `newLoc` computed from `loc`. -/
def rewriteLocation (loc : GoString) : GoString :=
  if HasPrefix loc upPrefix then Replace loc upPrefix (masterPrefix ++ basePath) 1
  else if HasPrefix loc "/".toList then basePath ++ loc
  else loc

/-- Step 1 of `ModifyResponse` on the header map: a non-empty `Location` is
rewritten, and set back only when the rewrite changed it. -/
def fixLocation (h : Header) : Header :=
  let loc := h.Get "Location"
  if loc ≠ [] then
    let newLoc := rewriteLocation loc
    if newLoc ≠ loc then h.Set "Location" newLoc else h
  else h

/-- Step 2 of `ModifyResponse`, the body of the loop over the cookies: the
final value of `c`. -/
def rewriteCookie (c : GoString) : GoString :=
  let c := ReplaceAll c ("Domain=".toList ++ targetURL.Host) ("Domain=".toList ++ masterHost)
  let c := ReplaceAll c ("Domain=.".toList ++ targetURL.Host) ("Domain=".toList ++ masterHost)
  let c :=
    if !Contains c "Path=".toList then c ++ "; Path=".toList ++ basePath ++ "/".toList
    else ReplaceAll c "Path=/".toList ("Path=".toList ++ basePath ++ "/".toList)
  let c := if !Contains c "Secure".toList then c ++ "; Secure".toList else c
  c

/-- Step 2 of `ModifyResponse` on the header map: when there are `Set-Cookie`
values the key is deleted and every rewritten value is added back in order. -/
def fixCookies (h : Header) : Header :=
  let cookies := h.Values "Set-Cookie"
  if cookies.length > 0 then
    cookies.foldl (fun hd c => hd.Add "Set-Cookie" (rewriteCookie c)) (h.Del "Set-Cookie")
  else h

/-- Step 3 of `ModifyResponse`, the condition on the `Content-Type` value. -/
def isRewritable (ct : GoString) : Bool :=
  Contains ct "text/html".toList ||
  Contains ct "text/css".toList ||
  Contains ct "javascript".toList ||
  Contains ct "application/json".toList

/-- Step 3 of `ModifyResponse`, the nine substitutions on `bodyStr`, in the
order of the source. -/
def rewriteBody (bodyStr : GoString) : GoString :=
  let bodyStr := ReplaceAll bodyStr (upPrefix ++ "/".toList) (masterPrefix ++ basePath ++ "/".toList)
  let bodyStr := ReplaceAll bodyStr ("//".toList ++ targetURL.Host ++ "/".toList)
    ("//".toList ++ masterHost ++ basePath ++ "/".toList)
  let bodyStr := ReplaceAll bodyStr "href=\"/".toList ("href=\"".toList ++ basePath ++ "/".toList)
  let bodyStr := ReplaceAll bodyStr "src=\"/".toList ("src=\"".toList ++ basePath ++ "/".toList)
  let bodyStr := ReplaceAll bodyStr "action=\"/".toList ("action=\"".toList ++ basePath ++ "/".toList)
  let bodyStr := ReplaceAll bodyStr "data-url=\"/".toList ("data-url=\"".toList ++ basePath ++ "/".toList)
  let bodyStr := ReplaceAll bodyStr "url(/".toList ("url(".toList ++ basePath ++ "/".toList)
  let bodyStr := ReplaceAll bodyStr "url(\"/".toList ("url(\"".toList ++ basePath ++ "/".toList)
  let bodyStr := ReplaceAll bodyStr "url('/".toList ("url('".toList ++ basePath ++ "/".toList)
  bodyStr

/-- The function assigned to `proxy.ModifyResponse` in `main.go`: the response
as the hook leaves it, and the error it returns (`none` for `nil`). -/
def ModifyResponse (resp : Response) : Response × Option Error :=
  let resp := { resp with Header := fixLocation resp.Header }
  let resp := { resp with Header := fixCookies resp.Header }
  let ct := resp.Header.Get "Content-Type"
  if isRewritable ct then
    match ReadAll resp.Body with
    | (_, some err) => (resp, some err)
    | (body, none) =>
      let bodyStr := rewriteBody body
      ({ resp with
          Body := NopCloser bodyStr
          ContentLength := (bodyStr.length : Int)
          Header := resp.Header.Set "Content-Length" (Itoa (bodyStr.length : Int)) }, none)
  else (resp, none)

/-! ## `mvp.go`: the minimal configuration -/

namespace Mvp

/-- Step 3 of `ModifyResponse` in `mvp.go`, the two substitutions on `bodyStr`;
`masterHost` is the flag `-master`, `scheme` and `host` are those of the parsed
flag `-target`. -/
def rewriteBody (masterHost scheme host bodyStr : GoString) : GoString :=
  let upPrefix := scheme ++ "://".toList ++ host
  let masterPrefix := "http://".toList ++ masterHost
  let bodyStr := ReplaceAll bodyStr upPrefix masterPrefix
  let bodyStr := ReplaceAll bodyStr ("//".toList ++ host) ("//".toList ++ masterHost)
  bodyStr

end Mvp

/-! ## Vocabulary of the properties -/

/-- The nine substitutions of the body rewrite, `(old, new)`, in the order of
the source and with the constants of `main.go` written out. -/
def bodyRules : List (GoString × GoString) :=
  [ ("https://vritjobs.com/".toList, "https://www.mydomain.com/hemanta/proxy/".toList),
    ("//vritjobs.com/".toList, "//www.mydomain.com/hemanta/proxy/".toList),
    ("href=\"/".toList, "href=\"/hemanta/proxy/".toList),
    ("src=\"/".toList, "src=\"/hemanta/proxy/".toList),
    ("action=\"/".toList, "action=\"/hemanta/proxy/".toList),
    ("data-url=\"/".toList, "data-url=\"/hemanta/proxy/".toList),
    ("url(/".toList, "url(/hemanta/proxy/".toList),
    ("url(\"/".toList, "url(\"/hemanta/proxy/".toList),
    ("url('/".toList, "url('/hemanta/proxy/".toList) ]

/-- A list of substitutions applied one after the other. -/
def applyRules (rules : List (GoString × GoString)) (s : GoString) : GoString :=
  rules.foldl (fun t r => ReplaceAll t r.1 r.2) s

/-- The ways in which an instance of `q` can start inside `a` when some text
follows `a`: for every position of `a` from which `q` agrees with the rest of
`a`, the part of `q` that is left to be matched by the following text (empty
when `q` lies within `a`). -/
def straddles : GoString → GoString → List GoString
  | [], _ => []
  | c :: t, q =>
    (if (q.take (c :: t).length).isPrefixOf (c :: t) then [q.drop (c :: t).length] else [])
      ++ straddles t q

/-- The two `Domain=` substitutions of the cookie loop, with the constants of
`main.go` written out. -/
def domainStep (c : GoString) : GoString :=
  ReplaceAll (ReplaceAll c "Domain=vritjobs.com".toList "Domain=www.mydomain.com".toList)
    "Domain=.vritjobs.com".toList "Domain=www.mydomain.com".toList

/-- The `Path=` step of the cookie loop, with the constants written out. -/
def pathStep (c : GoString) : GoString :=
  if Contains c "Path=".toList = true then
    ReplaceAll c "Path=/".toList "Path=/hemanta/proxy/".toList
  else c ++ "; Path=/hemanta/proxy/".toList

/-- The `Secure` step of the cookie loop. -/
def secureStep (c : GoString) : GoString :=
  if Contains c "Secure".toList = true then c else c ++ "; Secure".toList

/-- The eligible attribute contexts of the specification. -/
def attributeContexts : List GoString :=
  [ "href=\"".toList, "src=\"".toList, "action=\"".toList, "data-url=\"".toList,
    "url(".toList, "url(\"".toList, "url('".toList ]

/-- A body fragment like `<a href="/x">`: the root-relative reference `/x` in
the attribute context `ctx`. -/
def fragment (ctx x : GoString) : GoString :=
  "<a ".toList ++ ctx ++ "/".toList ++ x ++ "\">".toList

/-- The fragment with the reference in its prefixed form, like
`<a href="/hemanta/proxy/x">`. -/
def prefixedFragment (ctx x : GoString) : GoString :=
  "<a ".toList ++ ctx ++ "/hemanta/proxy/".toList ++ x ++ "\">".toList

/-- The number that a non-empty text of decimal digits denotes; `none` for any
other text. -/
def decimalValue (s : GoString) : Option Nat :=
  if s ≠ [] ∧ s.all Char.isDigit = true then
    some (s.foldl (fun n c => 10 * n + (c.toNat - '0'.toNat)) 0)
  else none

/-- The segments of a text between the occurrences of the separator `sep`, as
Go `strings.Split` returns them for a one-byte separator. -/
def splitOn (sep : Char) : GoString → List GoString
  | [] => [[]]
  | c :: t =>
    if c = sep then [] :: splitOn sep t
    else
      match splitOn sep t with
      | [] => [[c]]
      | seg :: rest => (c :: seg) :: rest

/-- A text without its leading and trailing spaces. -/
def trimSpaces (s : GoString) : GoString :=
  ((s.dropWhile (· = ' ')).reverse.dropWhile (· = ' ')).reverse

/-- The attributes of a cookie string: its segments between `;`, with the
spaces around each removed (the first one is the name/value pair). -/
def cookieAttributes (c : GoString) : List GoString :=
  (splitOn ';' c).map trimSpaces

/-- The number of attributes of a cookie string that are equal to `Secure`. -/
def secureCount (c : GoString) : Nat :=
  (cookieAttributes c).count "Secure".toList

/-- What the cookie loop does to one segment between `;`: the two `Domain=`
substitutions, and the `Path=/` substitution when the cookie contains `Path=`. -/
def rewriteSegment (pathFound : Bool) (seg : GoString) : GoString :=
  if pathFound = true then
    ReplaceAll (domainStep seg) "Path=/".toList "Path=/hemanta/proxy/".toList
  else domainStep seg

/-- The segments that the cookie loop appends: a `Path` when the cookie does
not contain `Path=`, and a `Secure` when the cookie does not contain `Secure`
after the `Path=` step. -/
def addedSegments (c : GoString) : List GoString :=
  (if Contains c "Path=".toList = true then [] else [" Path=/hemanta/proxy/".toList]) ++
  (if Contains (pathStep (domainStep c)) "Secure".toList = true then [] else [" Secure".toList])

/-- The attributes of a cookie string that start with `name`, such as `Path=`. -/
def attributesNamed (name c : GoString) : List GoString :=
  (cookieAttributes c).filter (fun a => name.isPrefixOf a)

/-! ## Sample data -/

/-- A response with the given header values and body. -/
def sampleResponse (location : List GoString) (cookies : List GoString)
    (contentType : List GoString) (body : GoString) : Response :=
  { StatusCode := 200
    Header := fun k =>
      if k = "Location" then location
      else if k = "Set-Cookie" then cookies
      else if k = "Content-Type" then contentType
      else []
    Body := { data := body, err := none }
    ContentLength := -1 }

/-- A redirect of the upstream to one of its own pages. -/
def redirectResponse : Response :=
  sampleResponse ["https://vritjobs.com/jobs/42".toList] [] [] []

/-- An HTML page of the upstream with one root-relative link. -/
def htmlResponse : Response :=
  sampleResponse [] [] ["text/html; charset=utf-8".toList] "<a href=\"/apply\">".toList

/-- An image of the upstream; the bytes happen to contain a link-like text. -/
def imageResponse : Response :=
  sampleResponse [] [] ["image/png".toList] "PNG href=\"/apply\"".toList

/-- The inbound request `GET /hemanta/proxy/jobs?x=1`. -/
def jobsRequest : Request :=
  { Method := "GET".toList
    URL := { Scheme := [], Host := [], Path := "/hemanta/proxy/jobs".toList, RawQuery := "x=1".toList }
    Host := "www.mydomain.com".toList }

/-- A response that sets a cookie whose name contains the text `Secure`. -/
def secureNameResponse : Response :=
  sampleResponse [] ["SecureToken=abc; Path=/".toList] [] []

/-- A response that sets three cookies. -/
def threeCookiesResponse : Response :=
  sampleResponse []
    ["session=abc; Domain=vritjobs.com; Path=/".toList, "theme=dark".toList,
      "lang=en; Secure".toList] [] []

/-- An HTML page whose body stream breaks after `<a href="/app`. -/
def brokenBodyResponse : Response :=
  { StatusCode := 200
    Header := fun k => if k = "Content-Type" then ["text/html".toList] else []
    Body := { data := "<a href=\"/app".toList, err := some "unexpected EOF" }
    ContentLength := 18 }

/-- The inbound request `GET /hemanta/proxy2/jobs`, for a sibling of the
directory `/hemanta/proxy`. -/
def siblingPathRequest : Request :=
  { Method := "GET".toList
    URL := { Scheme := [], Host := [], Path := "/hemanta/proxy2/jobs".toList, RawQuery := [] }
    Host := "www.mydomain.com".toList }

/-- A response that sets a cookie whose name contains the text `Path=`. -/
def returnPathResponse : Response :=
  sampleResponse [] ["returnPath=/jobs".toList] [] []

/-! ## Lemmas on the string functions -/

theorem Index_of_isPrefixOf {s sub : GoString} (h : sub.isPrefixOf s = true) :
    Index s sub = some 0 := by
  cases s <;> simp [Index, h]

theorem Contains_nil (sub : GoString) : Contains [] sub = sub.isPrefixOf [] := by
  cases sub <;> simp [Contains, Index]

theorem Contains_cons (c : Char) (t sub : GoString) :
    Contains (c :: t) sub = (sub.isPrefixOf (c :: t) || Contains t sub) := by
  unfold Contains
  rw [Index]
  split <;> simp_all

theorem Index_eq_none {s sub : GoString} (h : Contains s sub = false) : Index s sub = none := by
  unfold Contains at h
  cases hI : Index s sub <;> simp_all

theorem Index_bound {sub : GoString} :
    ∀ {s : GoString} {j : Nat}, Index s sub = some j → j + sub.length ≤ s.length := by
  intro s
  induction s with
  | nil =>
    intro j h
    cases sub with
    | nil => simp [Index] at h; simp [← h]
    | cons a as => simp [Index] at h
  | cons c t ih =>
    intro j h
    rw [Index] at h
    split at h
    · rename_i hp
      have hj : j = 0 := by simpa using h.symm
      subst hj
      have := (List.isPrefixOf_iff_prefix.mp hp).length_le
      simpa using this
    · cases hI : Index t sub with
      | none => simp [hI] at h
      | some i =>
        simp [hI] at h
        have := ih hI
        subst h
        simp
        omega

/-- Enough rounds: with a non-empty `old` the loop result does not depend on the
bound once the bound reaches the length of the text. -/
theorem replaceLoop_bound (old new : GoString) (hne : old ≠ []) :
    ∀ (n m : Nat) (s : GoString), s.length ≤ n → s.length ≤ m →
      replaceLoop old new n s = replaceLoop old new m s := by
  have hpos : 0 < old.length := List.length_pos.mpr hne
  intro n
  induction n with
  | zero =>
    intro m s hn _
    have hs : s = [] := List.length_eq_zero.mp (Nat.le_zero.mp hn)
    subst hs
    cases m with
    | zero => rfl
    | succ m =>
      cases old with
      | nil => exact absurd rfl hne
      | cons a as => simp [replaceLoop, Index]
  | succ n ih =>
    intro m s hn hm
    cases m with
    | zero =>
      have hs : s = [] := List.length_eq_zero.mp (Nat.le_zero.mp hm)
      subst hs
      cases old with
      | nil => exact absurd rfl hne
      | cons a as => simp [replaceLoop, Index]
    | succ m =>
      rw [replaceLoop, replaceLoop]
      cases hI : Index s old with
      | none => rfl
      | some j =>
        have hb := Index_bound hI
        simp only
        rw [ih m (s.drop (j + old.length)) (by simp; omega) (by simp; omega)]

/-- The text that `ReplaceAll` computes for a non-empty `old`. -/
theorem ReplaceAll_eq (s old new : GoString) (hne : old ≠ []) :
    ReplaceAll s old new = if old = new then s else replaceLoop old new (s.length + 1) s := by
  unfold ReplaceAll Replace
  by_cases h : old = new <;> simp [h, hne]

theorem ReplaceAll_nil (old new : GoString) (hne : old ≠ []) : ReplaceAll [] old new = [] := by
  rw [ReplaceAll_eq _ _ _ hne]
  cases old with
  | nil => exact absurd rfl hne
  | cons a as => simp [replaceLoop, Index]

/-- Scanning step at an instance of `old`: it is replaced and the scan continues
after it. -/
theorem ReplaceAll_of_isPrefixOf {s old new : GoString} (hne : old ≠ [])
    (hp : old.isPrefixOf s = true) :
    ReplaceAll s old new = new ++ ReplaceAll (s.drop old.length) old new := by
  have hpos : 0 < old.length := List.length_pos.mpr hne
  rw [ReplaceAll_eq _ _ _ hne, ReplaceAll_eq _ _ _ hne]
  by_cases h : old = new
  · simp only [h, if_true]
    have := List.isPrefixOf_iff_prefix.mp hp
    rw [h] at this
    obtain ⟨t, rfl⟩ := this
    simp
  · simp only [h, if_false]
    rw [replaceLoop, Index_of_isPrefixOf hp]
    simp only [List.take_zero, List.nil_append, Nat.zero_add]
    rw [replaceLoop_bound old new hne s.length ((s.drop old.length).length + 1)
      (s.drop old.length) (by simp) (by simp)]

/-- Scanning step where no instance of `old` starts: the element is copied. -/
theorem ReplaceAll_cons_of_not_isPrefixOf {c : Char} {t old new : GoString} (hne : old ≠ [])
    (hp : old.isPrefixOf (c :: t) = false) :
    ReplaceAll (c :: t) old new = c :: ReplaceAll t old new := by
  rw [ReplaceAll_eq _ _ _ hne, ReplaceAll_eq _ _ _ hne]
  by_cases h : old = new
  · simp [h]
  · simp only [h, if_false]
    rw [replaceLoop, Index, if_neg (by simp [hp])]
    cases hI : Index t old with
    | none => simp [replaceLoop, hI]
    | some j =>
      have hb := Index_bound hI
      simp only [Option.map_some', List.length_cons]
      conv_rhs => rw [replaceLoop, hI]
      simp only [List.take_succ_cons, List.cons_append, List.cons.injEq, true_and]
      have hd : List.drop (j + 1 + old.length) (c :: t) = List.drop (j + old.length) t := by
        rw [show j + 1 + old.length = (j + old.length) + 1 by omega, List.drop_succ_cons]
      rw [hd]
      rw [replaceLoop_bound old new hne (t.length + 1) t.length _ (by simp; omega) (by simp)]

/-- A text without an instance of `old` is returned as it is. -/
theorem ReplaceAll_of_not_Contains {s old new : GoString} (hne : old ≠ [])
    (h : Contains s old = false) : ReplaceAll s old new = s := by
  rw [ReplaceAll_eq _ _ _ hne]
  split
  · rfl
  · rw [replaceLoop, Index_eq_none h]

/-! ### Where an instance of `old` can start -/

/-- An element that does not occur in `old` ends every match that started
before it. -/
theorem isPrefixOf_append_barrier {old : GoString} {c : Char} (hc : c ∉ old) (b : GoString) :
    ∀ a : GoString, old.isPrefixOf (a ++ c :: b) = old.isPrefixOf a := by
  induction old with
  | nil => intro a; simp
  | cons o os ih =>
    intro a
    have ho : o ≠ c := fun h => hc (by simp [h])
    have hos : c ∉ os := fun h => hc (by simp [h])
    cases a with
    | nil => simp [List.isPrefixOf, ho]
    | cons x a => simp [List.isPrefixOf, ih hos a]

/-- A text in which the last element of `old` does not occur cannot hold the
end of a match. -/
theorem isPrefixOf_append_tail {init : GoString} {d : Char} {s : GoString} (hd : d ∉ s) :
    ∀ a : GoString, (init ++ [d]).isPrefixOf (a ++ s) = (init ++ [d]).isPrefixOf a := by
  induction init with
  | nil =>
    intro a
    cases a with
    | nil =>
      cases s with
      | nil => rfl
      | cons x s =>
        have : d ≠ x := fun h => hd (by simp [h])
        simp [List.isPrefixOf, this]
    | cons x a => simp [List.isPrefixOf]
  | cons o os ih =>
    intro a
    cases a with
    | nil =>
      have h1 : ((o :: os) ++ [d]).isPrefixOf ([] ++ s) = false := by
        cases hp : ((o :: os) ++ [d]).isPrefixOf ([] ++ s) with
        | false => rfl
        | true =>
          exfalso
          have hpre := List.isPrefixOf_iff_prefix.mp hp
          exact hd (hpre.subset (by simp))
      rw [h1]
      rfl
    | cons x a =>
      show (o == x && (os ++ [d]).isPrefixOf (a ++ s)) = (o == x && (os ++ [d]).isPrefixOf a)
      rw [ih a]

/-- Locality of the scan: when no match that starts in `a` reaches into `b`, the
two parts are rewritten separately. -/
theorem ReplaceAll_append_of_local {old new b : GoString} (hne : old ≠ []) :
    ∀ (n : Nat) (a : GoString), a.length ≤ n →
      (∀ i, old.isPrefixOf (a.drop i ++ b) = old.isPrefixOf (a.drop i)) →
      ReplaceAll (a ++ b) old new = ReplaceAll a old new ++ ReplaceAll b old new := by
  have hpos : 0 < old.length := List.length_pos.mpr hne
  intro n
  induction n with
  | zero =>
    intro a hn _
    have ha : a = [] := List.length_eq_zero.mp (Nat.le_zero.mp hn)
    subst ha
    simp [ReplaceAll_nil _ _ hne]
  | succ n ih =>
    intro a hn h
    cases a with
    | nil => simp [ReplaceAll_nil _ _ hne]
    | cons c a =>
      have h0 := h 0
      simp only [List.drop_zero] at h0
      cases hp : old.isPrefixOf (c :: a) with
      | true =>
        rw [hp] at h0
        have hle : old.length ≤ (c :: a).length := (List.isPrefixOf_iff_prefix.mp hp).length_le
        rw [ReplaceAll_of_isPrefixOf hne h0, ReplaceAll_of_isPrefixOf hne hp,
          List.drop_append_of_le_length hle, List.append_assoc]
        congr 1
        apply ih
        · simp at hn ⊢; omega
        · intro i
          have := h (old.length + i)
          simpa [List.drop_drop, Nat.add_comm] using this
      | false =>
        rw [hp] at h0
        rw [List.cons_append] at h0 ⊢
        rw [ReplaceAll_cons_of_not_isPrefixOf hne h0, ReplaceAll_cons_of_not_isPrefixOf hne hp,
          List.cons_append]
        congr 1
        apply ih
        · simpa using hn
        · intro i
          simpa using h (i + 1)

/-- Barrier: an element that does not occur in `old` splits the text into two
parts that are rewritten separately. -/
theorem ReplaceAll_append_barrier {old new : GoString} {c : Char} (hne : old ≠ [])
    (hc : c ∉ old) (a b : GoString) :
    ReplaceAll (a ++ c :: b) old new = ReplaceAll a old new ++ c :: ReplaceAll b old new := by
  rw [ReplaceAll_append_of_local hne a.length a (Nat.le_refl _)
    (fun i => isPrefixOf_append_barrier hc b (a.drop i))]
  congr 1
  apply ReplaceAll_cons_of_not_isPrefixOf hne
  have h := isPrefixOf_append_barrier hc b []
  rw [List.nil_append] at h
  rw [h]
  cases old with
  | nil => exact absurd rfl hne
  | cons x xs => rfl

/-- Tail: a trailing text in which the last element of `old` does not occur is
copied, and does not change how the text before it is rewritten. -/
theorem ReplaceAll_append_tail {init new s : GoString} {d : Char} (hd : d ∉ s) (a : GoString) :
    ReplaceAll (a ++ s) (init ++ [d]) new = ReplaceAll a (init ++ [d]) new ++ s := by
  have hne : init ++ [d] ≠ [] := by simp
  rw [ReplaceAll_append_of_local hne a.length a (Nat.le_refl _)
    (fun i => isPrefixOf_append_tail hd (a.drop i))]
  congr 1
  apply ReplaceAll_of_not_Contains hne
  clear a
  induction s with
  | nil => simp [Contains_nil]
  | cons x s ih =>
    have hx : d ∉ s := fun h => hd (by simp [h])
    rw [Contains_cons, ih hx]
    have := @isPrefixOf_append_tail init d (x :: s) hd ([] : GoString)
    simp only [List.nil_append] at this
    rw [this]
    simp

theorem Contains_append_barrier {sub : GoString} {c : Char} (hc : c ∉ sub) (b : GoString) :
    ∀ a : GoString, Contains (a ++ c :: b) sub = (Contains a sub || Contains b sub) := by
  intro a
  induction a with
  | nil =>
    have h := isPrefixOf_append_barrier hc b []
    simp only [List.nil_append] at h ⊢
    rw [Contains_cons, h, Contains_nil]
  | cons x a ih =>
    rw [List.cons_append, Contains_cons, Contains_cons, ih, ← List.cons_append,
      isPrefixOf_append_barrier hc b (x :: a), Bool.or_assoc]

/-- `Contains` decides the infix relation. -/
theorem Contains_iff_occurs {s sub : GoString} : Contains s sub = true ↔ sub <:+: s := by
  induction s with
  | nil =>
    rw [Contains_nil]
    constructor
    · intro h
      exact (List.isPrefixOf_iff_prefix.mp h).isInfix
    · intro h
      have := List.eq_nil_of_infix_nil h
      simp [this]
  | cons c t ih =>
    rw [Contains_cons, Bool.or_eq_true, ih, List.infix_cons_iff, List.isPrefixOf_iff_prefix]

theorem Contains_eq_false_iff {s sub : GoString} : Contains s sub = false ↔ ¬ sub <:+: s := by
  rw [← Contains_iff_occurs]
  simp

theorem isPrefixOf_append_of_mismatch {q : GoString} :
    ∀ {a : GoString}, (q.take a.length).isPrefixOf a = false →
      ∀ X : GoString, q.isPrefixOf (a ++ X) = false := by
  induction q with
  | nil => intro a h; simp at h
  | cons x q ih =>
    intro a h X
    cases a with
    | nil => simp at h
    | cons y a =>
      simp only [List.length_cons, List.take_succ_cons, List.isPrefixOf, Bool.and_eq_false_iff,
        List.cons_append] at h ⊢
      rcases h with h | h
      · exact Or.inl h
      · exact Or.inr (ih h X)

/-! ### Headers -/

theorem foldl_Add_other (f : GoString → GoString) (key k : String) (hk : k ≠ key) :
    ∀ (cookies : List GoString) (h : Header),
      (cookies.foldl (fun hd c => hd.Add key (f c)) h) k = h k := by
  intro cookies
  induction cookies with
  | nil => intro h; rfl
  | cons c cs ih =>
    intro h
    rw [List.foldl_cons, ih]
    simp [Header.Add, hk]

theorem foldl_Add_self (f : GoString → GoString) (key : String) :
    ∀ (cookies : List GoString) (h : Header),
      (cookies.foldl (fun hd c => hd.Add key (f c)) h) key = h key ++ cookies.map f := by
  intro cookies
  induction cookies with
  | nil => intro h; simp
  | cons c cs ih =>
    intro h
    rw [List.foldl_cons, ih]
    simp [Header.Add]

theorem fixCookies_other (h : Header) (k : String) (hk : k ≠ "Set-Cookie") :
    fixCookies h k = h k := by
  unfold fixCookies
  split
  · rw [foldl_Add_other _ _ _ hk]
    simp [Header.Del, hk]
  · rfl

theorem fixLocation_other (h : Header) (k : String) (hk : k ≠ "Location") :
    fixLocation h k = h k := by
  simp only [fixLocation]
  split
  · split
    · simp [Header.Set, hk]
    · rfl
  · rfl

/-- The header map after `ModifyResponse`, at a key other than `Content-Length`. -/
theorem ModifyResponse_Header (resp : Response) (k : String) (hk : k ≠ "Content-Length") :
    (ModifyResponse resp).1.Header k = fixCookies (fixLocation resp.Header) k := by
  simp only [ModifyResponse]
  split
  · split
    · rfl
    · simp [Header.Set, hk]
  · rfl

theorem rewriteLocation_nil : rewriteLocation [] = [] := by decide

theorem ModifyResponse_Location (resp : Response) :
    (ModifyResponse resp).1.Header.Get "Location" =
      rewriteLocation (resp.Header.Get "Location") := by
  have key : (ModifyResponse resp).1.Header "Location" = fixLocation resp.Header "Location" := by
    rw [ModifyResponse_Header resp "Location" (by decide),
      fixCookies_other _ "Location" (by decide)]
  show ((ModifyResponse resp).1.Header "Location").headD [] = _
  rw [key]
  simp only [fixLocation]
  generalize hloc : resp.Header.Get "Location" = loc
  by_cases h1 : loc = []
  · rw [if_neg (by simpa using h1)]
    subst h1
    rw [rewriteLocation_nil]
    exact hloc
  · rw [if_pos h1]
    by_cases h2 : rewriteLocation loc = loc
    · rw [if_neg (by simpa using h2), h2]
      exact hloc
    · rw [if_pos h2]
      simp [Header.Set]

/-! ### The `Location` rewrite -/

theorem Replace_one_of_isPrefixOf {s old new : GoString} (hne : old ≠ []) (hon : old ≠ new)
    (hp : old.isPrefixOf s = true) :
    Replace s old new 1 = new ++ s.drop old.length := by
  unfold Replace
  simp [hne, hon, replaceLoop, Index_of_isPrefixOf hp]

theorem rewriteLocation_upstream (s : GoString) :
    rewriteLocation ("https://vritjobs.com".toList ++ s) =
      "https://www.mydomain.com/hemanta/proxy".toList ++ s := by
  have hu : upPrefix = "https://vritjobs.com".toList := by decide
  have hm : masterPrefix ++ basePath = "https://www.mydomain.com/hemanta/proxy".toList := by
    decide
  have hp : ("https://vritjobs.com".toList).isPrefixOf ("https://vritjobs.com".toList ++ s)
      = true := List.isPrefixOf_iff_prefix.mpr (List.prefix_append _ _)
  unfold rewriteLocation
  rw [hu, hm, HasPrefix, hp, if_pos rfl, Replace_one_of_isPrefixOf (by decide) (by decide) hp,
    List.drop_left]

theorem rewriteLocation_root {loc : GoString} (h1 : ¬ "https://vritjobs.com".toList <+: loc)
    (h2 : "/".toList <+: loc) : rewriteLocation loc = "/hemanta/proxy".toList ++ loc := by
  have hu : upPrefix = "https://vritjobs.com".toList := by decide
  unfold rewriteLocation HasPrefix
  rw [hu, if_neg (by simpa using h1), if_pos (by simpa using h2)]
  rfl

theorem rewriteLocation_other {loc : GoString} (h1 : ¬ "https://vritjobs.com".toList <+: loc)
    (h2 : ¬ "/".toList <+: loc) : rewriteLocation loc = loc := by
  have hu : upPrefix = "https://vritjobs.com".toList := by decide
  unfold rewriteLocation HasPrefix
  rw [hu, if_neg (by simpa using h1), if_neg (by simpa using h2)]

/-! ### The cookie rewrite -/

theorem Contains_false_of_part {s q sub : GoString} (h : ¬ q <:+: s) (hq : q <:+: sub) :
    Contains s sub = false :=
  Contains_eq_false_iff.mpr (fun hs => h (hq.trans hs))

/-- A left part without an instance of `old`, closed by an element that is not
in `old`, is copied. -/
theorem ReplaceAll_keep_left {s old new rest : GoString} {c : Char} (hne : old ≠ [])
    (hc : c ∉ old) (hs : Contains s old = false) :
    ReplaceAll (s ++ c :: rest) old new = s ++ c :: ReplaceAll rest old new := by
  rw [ReplaceAll_append_barrier hne hc, ReplaceAll_of_not_Contains hne hs]

/-- The cookie rewrite is its three steps in sequence. -/
theorem rewriteCookie_eq (c : GoString) :
    rewriteCookie c = secureStep (pathStep (domainStep c)) := by
  unfold rewriteCookie secureStep pathStep domainStep
  have e1 : "Domain=".toList ++ targetURL.Host = "Domain=vritjobs.com".toList := by decide
  have e2 : "Domain=.".toList ++ targetURL.Host = "Domain=.vritjobs.com".toList := by decide
  have e3 : "Domain=".toList ++ masterHost = "Domain=www.mydomain.com".toList := by decide
  have e4 : "Path=".toList ++ basePath ++ "/".toList = "Path=/hemanta/proxy/".toList := by decide
  have e5 : ∀ x : GoString, x ++ "; Path=".toList ++ basePath ++ "/".toList =
      x ++ "; Path=/hemanta/proxy/".toList := by
    intro x
    rw [List.append_assoc, List.append_assoc]
    rfl
  simp only [e1, e2, e3, e4, e5]
  cases h1 : Contains (ReplaceAll (ReplaceAll c "Domain=vritjobs.com".toList
      "Domain=www.mydomain.com".toList) "Domain=.vritjobs.com".toList
      "Domain=www.mydomain.com".toList) "Path=".toList <;>
    simp only [Bool.not_false, Bool.not_true, if_true, Bool.false_eq_true, if_false] <;>
    split <;> simp_all

theorem ModifyResponse_SetCookie (resp : Response) :
    (ModifyResponse resp).1.Header.Values "Set-Cookie" =
      (resp.Header.Values "Set-Cookie").map rewriteCookie := by
  unfold Header.Values
  rw [ModifyResponse_Header resp "Set-Cookie" (by decide)]
  have hfl : fixLocation resp.Header "Set-Cookie" = resp.Header "Set-Cookie" :=
    fixLocation_other _ "Set-Cookie" (by decide)
  simp only [fixCookies, Header.Values]
  split
  · rw [foldl_Add_self, hfl]
    simp [Header.Del]
  · rename_i h
    rw [hfl] at h ⊢
    cases hc : resp.Header "Set-Cookie" with
    | nil => rfl
    | cons a as => simp [hc] at h

/-! ### The body rewrite -/

theorem rewriteBody_eq (b : GoString) : rewriteBody b = applyRules bodyRules b := rfl

theorem applyRules_cons (r : GoString × GoString) (rules : List (GoString × GoString))
    (s : GoString) : applyRules (r :: rules) s = applyRules rules (ReplaceAll s r.1 r.2) := rfl

/-- An element that occurs in no `old` splits the text for the whole list of
substitutions. -/
theorem applyRules_append_barrier {c : Char} :
    ∀ (rules : List (GoString × GoString)), (∀ r ∈ rules, r.1 ≠ [] ∧ c ∉ r.1) →
      ∀ a b : GoString,
        applyRules rules (a ++ c :: b) = applyRules rules a ++ c :: applyRules rules b := by
  intro rules
  induction rules with
  | nil => intro _ a b; rfl
  | cons r rules ih =>
    intro h a b
    have hr := h r (List.mem_cons_self _ _)
    rw [applyRules_cons, applyRules_cons, applyRules_cons,
      ReplaceAll_append_barrier hr.1 hr.2,
      ih (fun r' hr' => h r' (List.mem_cons_of_mem _ hr'))]

/-- A trailing text without the element that ends every `old` is copied by the
whole list of substitutions. -/
theorem applyRules_append_tail {d : Char} {s : GoString} (hd : d ∉ s) :
    ∀ (rules : List (GoString × GoString)), (∀ r ∈ rules, r.1.getLast? = some d) →
      ∀ a : GoString, applyRules rules (a ++ s) = applyRules rules a ++ s := by
  intro rules
  induction rules with
  | nil => intro _ a; rfl
  | cons r rules ih =>
    intro h a
    have hr := h r (List.mem_cons_self _ _)
    have hsplit : r.1.dropLast ++ [d] = r.1 := List.dropLast_append_getLast? d (by simp [hr])
    rw [applyRules_cons, applyRules_cons, ← hsplit, ReplaceAll_append_tail hd, hsplit,
      ih (fun r' hr' => h r' (List.mem_cons_of_mem _ hr'))]

theorem rewriteBody_append_barrier {c : Char} (hc : ∀ r ∈ bodyRules, r.1 ≠ [] ∧ c ∉ r.1)
    (a b : GoString) : rewriteBody (a ++ c :: b) = rewriteBody a ++ c :: rewriteBody b := by
  simp only [rewriteBody_eq]
  exact applyRules_append_barrier bodyRules hc a b

/-- Every search text of the body rewrite ends with `/`: a trailing text
without `/` is copied. -/
theorem rewriteBody_append_tail {s : GoString} (hs : '/' ∉ s) (a : GoString) :
    rewriteBody (a ++ s) = rewriteBody a ++ s := by
  simp only [rewriteBody_eq]
  exact applyRules_append_tail hs bodyRules (by decide!) a

theorem slash_not_mem_of_alphanum {x : GoString} (hx : x.all Char.isAlphanum = true) :
    '/' ∉ x := by
  intro h
  have := List.all_eq_true.mp hx '/' h
  exact absurd this (by decide)

theorem rewriteBody_fragment {ctx x : GoString} (hctx : ctx ∈ attributeContexts)
    (hx : x.all Char.isAlphanum = true) (rest : GoString) :
    rewriteBody (fragment ctx x ++ rest) = prefixedFragment ctx x ++ rewriteBody rest := by
  have hs : '/' ∉ x ++ ['"'] := by
    intro h
    rcases List.mem_append.mp h with h | h
    · exact slash_not_mem_of_alphanum hx h
    · exact absurd h (by decide)
  have e1 : fragment ctx x ++ rest
      = (("<a ".toList ++ ctx ++ "/".toList) ++ (x ++ ['"'])) ++ '>' :: rest := by
    simp [fragment]
  have e2 : prefixedFragment ctx x ++ rewriteBody rest
      = (("<a ".toList ++ ctx ++ "/hemanta/proxy/".toList) ++ (x ++ ['"']))
        ++ '>' :: rewriteBody rest := by
    simp [prefixedFragment]
  have key : rewriteBody ("<a ".toList ++ ctx ++ "/".toList) =
      "<a ".toList ++ ctx ++ "/hemanta/proxy/".toList := by
    simp only [attributeContexts, List.mem_cons, List.mem_singleton, List.not_mem_nil,
      or_false] at hctx
    rcases hctx with h | h | h | h | h | h | h <;> subst h <;> decide!
  rw [e1, e2, rewriteBody_append_barrier (c := '>') (by decide!), rewriteBody_append_tail hs, key]

/-! ### `strconv.Itoa` -/

theorem digitChar_isDigit : ∀ k, k < 10 → (Nat.digitChar k).isDigit = true := by decide

theorem digitChar_value : ∀ k, k < 10 → (Nat.digitChar k).toNat - '0'.toNat = k := by decide

theorem toDigitsCore_spec :
    ∀ (fuel n : Nat) (ds : List Char), n < fuel →
      ∃ l : List Char, Nat.toDigitsCore 10 fuel n ds = l ++ ds ∧ l ≠ [] ∧
        l.all Char.isDigit = true ∧
        l.foldl (fun m c => 10 * m + (c.toNat - '0'.toNat)) 0 = n := by
  intro fuel
  induction fuel with
  | zero => intro n ds h; exact absurd h (Nat.not_lt_zero _)
  | succ fuel ih =>
    intro n ds h
    have hlt : n % 10 < 10 := Nat.mod_lt _ (by decide)
    rw [Nat.toDigitsCore]
    by_cases h0 : n / 10 = 0
    · refine ⟨[Nat.digitChar (n % 10)], by simp [h0], by simp, ?_, ?_⟩
      · simp [digitChar_isDigit _ hlt]
      · have hn : n % 10 = n := Nat.mod_eq_of_lt (by omega)
        simp only [List.foldl_cons, List.foldl_nil, Nat.mul_zero, Nat.zero_add]
        rw [digitChar_value _ hlt, hn]
    · obtain ⟨l, hl, _, hall, hval⟩ := ih (n / 10) (Nat.digitChar (n % 10) :: ds) (by omega)
      refine ⟨l ++ [Nat.digitChar (n % 10)], by simp [h0, hl], by simp, ?_, ?_⟩
      · simp [hall, digitChar_isDigit _ hlt]
      · rw [List.foldl_append, hval]
        simp only [List.foldl_cons, List.foldl_nil]
        rw [digitChar_value _ hlt]
        omega

/-- The text that `Itoa` writes for a length denotes that length. -/
theorem decimalValue_Itoa (n : Nat) : decimalValue (Itoa (n : Int)) = some n := by
  have hn : ¬ ((n : Int) < 0) := by omega
  unfold Itoa
  rw [if_neg hn, Int.toNat_ofNat, Nat.toDigits]
  obtain ⟨l, hl, hne, hall, hval⟩ := toDigitsCore_spec (n + 1) n [] (Nat.lt_succ_self n)
  rw [hl, List.append_nil, decimalValue, if_pos ⟨hne, hall⟩, hval]

/-! ### The three outcomes of `ModifyResponse` -/

theorem ContentType_after_headers (h : Header) :
    Header.Get (fixCookies (fixLocation h)) "Content-Type" = h.Get "Content-Type" := by
  unfold Header.Get
  rw [fixCookies_other _ "Content-Type" (by decide), fixLocation_other _ "Content-Type" (by decide)]

theorem ModifyResponse_passthrough (resp : Response)
    (hct : isRewritable (resp.Header.Get "Content-Type") = false) :
    ModifyResponse resp =
      ({ resp with Header := fixCookies (fixLocation resp.Header) }, none) := by
  simp only [ModifyResponse, ContentType_after_headers, hct, Bool.false_eq_true, if_false]

theorem ModifyResponse_rewritten (resp : Response)
    (hct : isRewritable (resp.Header.Get "Content-Type") = true) (hread : resp.Body.err = none) :
    ModifyResponse resp =
      ({ resp with
          Header := (fixCookies (fixLocation resp.Header)).Set "Content-Length"
            (Itoa ((rewriteBody resp.Body.data).length : Int))
          Body := NopCloser (rewriteBody resp.Body.data)
          ContentLength := ((rewriteBody resp.Body.data).length : Int) }, none) := by
  simp only [ModifyResponse, ContentType_after_headers, hct, if_true, ReadAll, hread]

theorem ModifyResponse_read_error (resp : Response)
    (hct : isRewritable (resp.Header.Get "Content-Type") = true) (e : Error)
    (hread : resp.Body.err = some e) :
    ModifyResponse resp =
      ({ resp with Header := fixCookies (fixLocation resp.Header) }, some e) := by
  simp only [ModifyResponse, ContentType_after_headers, hct, if_true, ReadAll, hread]

theorem isRewritable_eq_false {ct : GoString} (h1 : ¬ "text/html".toList <:+: ct)
    (h2 : ¬ "text/css".toList <:+: ct) (h3 : ¬ "javascript".toList <:+: ct)
    (h4 : ¬ "application/json".toList <:+: ct) : isRewritable ct = false := by
  unfold isRewritable
  rw [Contains_eq_false_iff.mpr h1, Contains_eq_false_iff.mpr h2, Contains_eq_false_iff.mpr h3,
    Contains_eq_false_iff.mpr h4]
  rfl

theorem isRewritable_eq_true {ct : GoString}
    (h : "text/html".toList <:+: ct ∨ "text/css".toList <:+: ct ∨ "javascript".toList <:+: ct ∨
      "application/json".toList <:+: ct) : isRewritable ct = true := by
  unfold isRewritable
  rcases h with h | h | h | h <;>
    simp only [Contains_iff_occurs.mpr h, Bool.true_or, Bool.or_true]

/-! ### Instances across a joint -/

theorem isPrefixOf_append_split (p : GoString) :
    ∀ (q x : GoString),
      q.isPrefixOf (x ++ p) = ((q.take x.length).isPrefixOf x && (q.drop x.length).isPrefixOf p) := by
  intro q
  induction q with
  | nil => intro x; simp
  | cons c q ih =>
    intro x
    cases x with
    | nil => simp
    | cons y x =>
      simp only [List.cons_append, List.length_cons, List.take_succ_cons, List.drop_succ_cons,
        List.isPrefixOf_cons₂, ih x, Bool.and_assoc]

/-- An instance of `q` in `a ++ p` lies in `p`, or starts in `a` in one of the
ways that `straddles a q` lists. -/
theorem Contains_append (p q : GoString) :
    ∀ a : GoString,
      Contains (a ++ p) q = ((straddles a q).any (fun r => r.isPrefixOf p) || Contains p q) := by
  intro a
  induction a with
  | nil => simp [straddles]
  | cons c t ih =>
    rw [List.cons_append, Contains_cons, ih, ← List.cons_append, isPrefixOf_append_split,
      straddles]
    by_cases h : (q.take (c :: t).length).isPrefixOf (c :: t) = true
    · rw [if_pos h, h]
      simp only [List.any_append, List.any_cons, List.any_nil, Bool.true_and, Bool.or_false,
        Bool.or_assoc]
    · rw [if_neg h, Bool.eq_false_iff.mpr h]
      simp only [List.nil_append, Bool.false_and, Bool.false_or]

theorem applyRules_of_not_Contains {s : GoString} :
    ∀ rules : List (GoString × GoString),
      (∀ r ∈ rules, r.1 ≠ [] ∧ Contains s r.1 = false) → applyRules rules s = s := by
  intro rules
  induction rules with
  | nil => intro _; rfl
  | cons r rules ih =>
    intro h
    have hr := h r (List.mem_cons_self _ _)
    rw [applyRules_cons, ReplaceAll_of_not_Contains hr.1 hr.2,
      ih (fun r' hr' => h r' (List.mem_cons_of_mem _ hr'))]

/-- The only way into the public form of the origin: after its last `/`, a text
that starts with `/vritjobs.com/` completes `//vritjobs.com/`. -/
theorem straddles_public_origin :
    ∀ r ∈ bodyRules, ∀ x ∈ straddles "https://www.mydomain.com/hemanta/proxy/".toList r.1,
      x = "/vritjobs.com/".toList := by
  decide!

theorem bodyRules_ne_nil : ∀ r ∈ bodyRules, r.1 ≠ [] := by decide!

/-- The public form of an upstream URL is a fixed point of every substitution
when the path has no search text and does not begin with `/vritjobs.com/`. -/
theorem public_origin_no_instance {p : GoString} (hp : ∀ r ∈ bodyRules, ¬ r.1 <:+: p)
    (hs : ¬ "/vritjobs.com/".toList <+: p) :
    ∀ r ∈ bodyRules,
      r.1 ≠ [] ∧ Contains ("https://www.mydomain.com/hemanta/proxy/".toList ++ p) r.1 = false := by
  intro r hr
  refine ⟨bodyRules_ne_nil r hr, ?_⟩
  rw [Contains_append, Contains_eq_false_iff.mpr (hp r hr), Bool.or_false]
  rw [Bool.eq_false_iff]
  intro hany
  obtain ⟨x, hx, hxp⟩ := List.any_eq_true.mp hany
  rw [straddles_public_origin r hr x hx] at hxp
  exact hs (List.isPrefixOf_iff_prefix.mp hxp)

/-! ### What a substitution can create and what it keeps -/

/-- A text without the first element of `old` and `new` is matched against the
rewritten text as against the original one. -/
theorem isPrefixOf_ReplaceAll {f : Char} {o n : GoString} :
    ∀ (q s : GoString), f ∉ q →
      q.isPrefixOf (ReplaceAll s (f :: o) (f :: n)) = q.isPrefixOf s := by
  intro q
  induction q with
  | nil => intro s _; simp
  | cons x q ih =>
    intro s hf
    have hx : x ≠ f := fun h => hf (by simp [h])
    have hq : f ∉ q := fun h => hf (by simp [h])
    cases s with
    | nil => rw [ReplaceAll_nil _ _ (by simp)]
    | cons c t =>
      cases hp : (f :: o).isPrefixOf (c :: t) with
      | true =>
        have hc : f = c := by
          rw [List.isPrefixOf_cons₂, Bool.and_eq_true] at hp
          simpa using hp.1
        rw [ReplaceAll_of_isPrefixOf (by simp) hp]
        subst hc
        have hxf : (x == f) = false := by simpa using hx
        simp only [List.cons_append, List.isPrefixOf_cons₂, hxf, Bool.false_and]
      | false =>
        rw [ReplaceAll_cons_of_not_isPrefixOf (by simp) hp]
        simp only [List.isPrefixOf_cons₂, ih t hq]

theorem Contains_drop_false {s q : GoString} (h : Contains s q = false) (k : Nat) :
    Contains (s.drop k) q = false :=
  Contains_eq_false_iff.mpr
    (fun hq => Contains_eq_false_iff.mp h (hq.trans (List.drop_suffix k s).isInfix))

/-- No new instance: when `old` and `new` start with the same element `f`, the
text `x :: q` has no further `f`, and no instance of it can start inside `new`,
a substitution creates no instance of `x :: q`; and when `x :: q` is `old`
itself it leaves none. -/
theorem Contains_ReplaceAll_false {f x : Char} {o n q : GoString} (hf : f ∉ q)
    (hst : straddles (f :: n) (x :: q) = []) :
    ∀ (k : Nat) (s : GoString), s.length ≤ k →
      (x :: q = f :: o ∨ Contains s (x :: q) = false) →
      Contains (ReplaceAll s (f :: o) (f :: n)) (x :: q) = false := by
  intro k
  induction k with
  | zero =>
    intro s hk _
    have hs : s = [] := List.length_eq_zero.mp (Nat.le_zero.mp hk)
    subst hs
    rw [ReplaceAll_nil _ _ (by simp), Contains_nil]
    rfl
  | succ k ih =>
    intro s hk h
    cases s with
    | nil =>
      rw [ReplaceAll_nil _ _ (by simp), Contains_nil]
      rfl
    | cons c t =>
      cases hp : (f :: o).isPrefixOf (c :: t) with
      | true =>
        rw [ReplaceAll_of_isPrefixOf (by simp) hp, Contains_append, hst]
        simp only [List.any_nil, Bool.false_or]
        apply ih
        · simp only [List.length_drop, List.length_cons] at hk ⊢
          omega
        · rcases h with h | h
          · exact Or.inl h
          · exact Or.inr (Contains_drop_false h _)
      | false =>
        rw [ReplaceAll_cons_of_not_isPrefixOf (by simp) hp, Contains_cons,
          List.isPrefixOf_cons₂, isPrefixOf_ReplaceAll q t hf, ← List.isPrefixOf_cons₂]
        have h1 : (x :: q).isPrefixOf (c :: t) = false := by
          rcases h with h | h
          · rw [h]; exact hp
          · rw [Contains_cons, Bool.or_eq_false_iff] at h
            exact h.1
        have h2 : x :: q = f :: o ∨ Contains t (x :: q) = false := by
          rcases h with h | h
          · exact Or.inl h
          · rw [Contains_cons, Bool.or_eq_false_iff] at h
            exact Or.inr h.2
        rw [h1, ih t (by simpa using hk) h2]
        rfl

/-- Kept instances: when `old` and `new` start with the same element `f`, the
text `x :: q` has no further `f`, and either `new` contains it or no instance of
it can start inside `old`, a substitution keeps a text that contains `x :: q`
one that contains it. -/
theorem Contains_ReplaceAll_true {f x : Char} {o n q : GoString} (hf : f ∉ q)
    (hm : Contains (f :: n) (x :: q) = true ∨ straddles (f :: o) (x :: q) = []) :
    ∀ (k : Nat) (s : GoString), s.length ≤ k → Contains s (x :: q) = true →
      Contains (ReplaceAll s (f :: o) (f :: n)) (x :: q) = true := by
  intro k
  induction k with
  | zero =>
    intro s hk h
    have hs : s = [] := List.length_eq_zero.mp (Nat.le_zero.mp hk)
    subst hs
    rw [Contains_nil] at h
    exact absurd h (by simp)
  | succ k ih =>
    intro s hk h
    cases s with
    | nil =>
      rw [Contains_nil] at h
      exact absurd h (by simp)
    | cons c t =>
      cases hp : (f :: o).isPrefixOf (c :: t) with
      | true =>
        rw [ReplaceAll_of_isPrefixOf (by simp) hp]
        rcases hm with hm | hm
        · exact Contains_iff_occurs.mpr
            ((Contains_iff_occurs.mp hm).trans (List.prefix_append _ _).isInfix)
        · have hsplit : (f :: o) ++ (c :: t).drop (f :: o).length = c :: t :=
            List.prefix_iff_eq_append.mp (List.isPrefixOf_iff_prefix.mp hp)
          rw [← hsplit, Contains_append, hm] at h
          simp only [List.any_nil, Bool.false_or] at h
          have := ih _ (by simp only [List.length_drop, List.length_cons] at hk ⊢; omega) h
          exact Contains_iff_occurs.mpr
            ((Contains_iff_occurs.mp this).trans (List.suffix_append _ _).isInfix)
      | false =>
        rw [ReplaceAll_cons_of_not_isPrefixOf (by simp) hp, Contains_cons,
          List.isPrefixOf_cons₂, isPrefixOf_ReplaceAll q t hf, ← List.isPrefixOf_cons₂]
        rw [Contains_cons, Bool.or_eq_true] at h
        rcases h with h | h
        · rw [h]; rfl
        · rw [ih t (by simpa using hk) h]
          simp

/-! ### The cookie rewrite applied to its own result -/

theorem Contains_append_left {s q : GoString} (h : Contains s q = true) (t : GoString) :
    Contains (s ++ t) q = true :=
  Contains_iff_occurs.mpr ((Contains_iff_occurs.mp h).trans (List.prefix_append _ _).isInfix)

theorem Contains_append_right {t q : GoString} (h : Contains t q = true) (s : GoString) :
    Contains (s ++ t) q = true :=
  Contains_iff_occurs.mpr ((Contains_iff_occurs.mp h).trans (List.suffix_append _ _).isInfix)

/-- After the `Domain=` step neither upstream form of the attribute is left. -/
theorem domainStep_clean (c : GoString) :
    Contains (domainStep c) "Domain=vritjobs.com".toList = false ∧
    Contains (domainStep c) "Domain=.vritjobs.com".toList = false := by
  unfold domainStep
  have h1 : Contains (ReplaceAll c "Domain=vritjobs.com".toList "Domain=www.mydomain.com".toList)
      "Domain=vritjobs.com".toList = false :=
    Contains_ReplaceAll_false (f := 'D') (x := 'D') (o := "omain=vritjobs.com".toList)
      (n := "omain=www.mydomain.com".toList) (q := "omain=vritjobs.com".toList)
      (by decide) (by decide!) c.length c (Nat.le_refl _) (Or.inl rfl)
  constructor
  · exact Contains_ReplaceAll_false (f := 'D') (x := 'D') (o := "omain=.vritjobs.com".toList)
      (n := "omain=www.mydomain.com".toList) (q := "omain=vritjobs.com".toList)
      (by decide) (by decide!) _ _ (Nat.le_refl _) (Or.inr h1)
  · exact Contains_ReplaceAll_false (f := 'D') (x := 'D') (o := "omain=.vritjobs.com".toList)
      (n := "omain=www.mydomain.com".toList) (q := "omain=.vritjobs.com".toList)
      (by decide) (by decide!) _ _ (Nat.le_refl _) (Or.inl rfl)

/-- The `Path=` step creates no instance of a text `x :: q` that has no `;`, no
`P` after its first element, and cannot start inside the text that the step
writes. -/
theorem pathStep_keeps_clean {c : GoString} {x : Char} {q : GoString} (hP : 'P' ∉ q)
    (hsemi : ';' ∉ x :: q)
    (h1 : straddles "Path=/hemanta/proxy/".toList (x :: q) = [])
    (h2 : Contains " Path=/hemanta/proxy/".toList (x :: q) = false)
    (hc : Contains c (x :: q) = false) : Contains (pathStep c) (x :: q) = false := by
  unfold pathStep
  split
  · exact Contains_ReplaceAll_false (f := 'P') (o := "ath=/".toList)
      (n := "ath=/hemanta/proxy/".toList) hP h1 _ _ (Nat.le_refl _) (Or.inr hc)
  · rw [show c ++ "; Path=/hemanta/proxy/".toList = c ++ ';' :: " Path=/hemanta/proxy/".toList
      from rfl, Contains_append_barrier hsemi, hc, h2]
    rfl

theorem pathStep_has_Path (c : GoString) : Contains (pathStep c) "Path=".toList = true := by
  unfold pathStep
  split
  · rename_i h
    exact Contains_ReplaceAll_true (f := 'P') (x := 'P') (o := "ath=/".toList)
      (n := "ath=/hemanta/proxy/".toList) (q := "ath=".toList) (by decide)
      (Or.inl (by decide!)) _ _ (Nat.le_refl _) h
  · exact Contains_append_right (by decide!) c

theorem secureStep_has_Secure (c : GoString) :
    Contains (secureStep c) "Secure".toList = true := by
  unfold secureStep
  split
  · assumption
  · exact Contains_append_right (by decide!) c

theorem secureStep_keeps_clean {c q : GoString} (hsemi : ';' ∉ q)
    (h2 : Contains " Secure".toList q = false) (hc : Contains c q = false) :
    Contains (secureStep c) q = false := by
  unfold secureStep
  split
  · exact hc
  · rw [show c ++ "; Secure".toList = c ++ ';' :: " Secure".toList from rfl,
      Contains_append_barrier hsemi, hc, h2]
    rfl

theorem secureStep_keeps_Path {c : GoString} (hc : Contains c "Path=".toList = true) :
    Contains (secureStep c) "Path=".toList = true := by
  unfold secureStep
  split
  · exact hc
  · exact Contains_append_left hc _

/-- What every rewritten cookie looks like: no upstream `Domain=` form, a
`Path=` and the text `Secure`. -/
theorem rewriteCookie_shape (c : GoString) :
    Contains (rewriteCookie c) "Domain=vritjobs.com".toList = false ∧
    Contains (rewriteCookie c) "Domain=.vritjobs.com".toList = false ∧
    Contains (rewriteCookie c) "Path=".toList = true ∧
    Contains (rewriteCookie c) "Secure".toList = true := by
  rw [rewriteCookie_eq]
  obtain ⟨d1, d2⟩ := domainStep_clean c
  refine ⟨?_, ?_, ?_, ?_⟩
  · exact secureStep_keeps_clean (by decide) (by decide!)
      (pathStep_keeps_clean (x := 'D') (q := "omain=vritjobs.com".toList)
        (by decide) (by decide) (by decide!) (by decide!) d1)
  · exact secureStep_keeps_clean (by decide) (by decide!)
      (pathStep_keeps_clean (x := 'D') (q := "omain=.vritjobs.com".toList)
        (by decide) (by decide) (by decide!) (by decide!) d2)
  · exact secureStep_keeps_Path (pathStep_has_Path _)
  · exact secureStep_has_Secure _

/-- A second application of the cookie rewrite only prefixes the `Path=/`
instances again: the `Domain=` step finds nothing and no `Secure` is added. -/
theorem rewriteCookie_twice (c : GoString) :
    rewriteCookie (rewriteCookie c) =
      ReplaceAll (rewriteCookie c) "Path=/".toList "Path=/hemanta/proxy/".toList := by
  obtain ⟨d1, d2, hp, hs⟩ := rewriteCookie_shape c
  have hd : domainStep (rewriteCookie c) = rewriteCookie c := by
    unfold domainStep
    rw [ReplaceAll_of_not_Contains (by decide) d1, ReplaceAll_of_not_Contains (by decide) d2]
  have hpath : pathStep (rewriteCookie c) =
      ReplaceAll (rewriteCookie c) "Path=/".toList "Path=/hemanta/proxy/".toList := by
    unfold pathStep
    rw [if_pos hp]
  have hsec : Contains (ReplaceAll (rewriteCookie c) "Path=/".toList "Path=/hemanta/proxy/".toList)
      "Secure".toList = true :=
    Contains_ReplaceAll_true (f := 'P') (x := 'S') (o := "ath=/".toList)
      (n := "ath=/hemanta/proxy/".toList) (q := "ecure".toList) (by decide)
      (Or.inr (by decide!)) _ _ (Nat.le_refl _) hs
  rw [rewriteCookie_eq (rewriteCookie c), hd, hpath, secureStep, if_pos hsec]

/-! ### Attributes of a cookie string -/

theorem splitOn_head (sep : Char) :
    ∀ s : GoString, ∃ seg rest, splitOn sep s = seg :: rest ∧ seg <+: s := by
  intro s
  induction s with
  | nil => exact ⟨[], [], rfl, List.prefix_refl _⟩
  | cons c t ih =>
    obtain ⟨seg, rest, hs, hpre⟩ := ih
    by_cases hc : c = sep
    · exact ⟨[], splitOn sep t, by simp [splitOn, hc], List.nil_prefix⟩
    · refine ⟨c :: seg, rest, by simp [splitOn, hc, hs], ?_⟩
      obtain ⟨u, hu⟩ := hpre
      exact ⟨u, by simp [hu]⟩

/-- Every segment is a part of the text that was split. -/
theorem splitOn_part (sep : Char) :
    ∀ (s seg : GoString), seg ∈ splitOn sep s → seg <:+: s := by
  intro s
  induction s with
  | nil =>
    intro seg h
    simp only [splitOn, List.mem_singleton] at h
    rw [h]
  | cons c t ih =>
    intro seg h
    obtain ⟨seg0, rest, hs, hpre⟩ := splitOn_head sep t
    by_cases hc : c = sep
    · simp only [splitOn, hc, if_true, List.mem_cons] at h
      rcases h with h | h
      · rw [h]; exact List.nil_infix
      · exact (ih seg h).trans (List.suffix_cons c t).isInfix
    · simp only [splitOn, hc, if_false, hs, List.mem_cons] at h
      rcases h with h | h
      · rw [h]
        obtain ⟨u, hu⟩ := hpre
        exact (show c :: seg0 <+: c :: t from ⟨u, by simp [hu]⟩).isInfix
      · have : seg ∈ splitOn sep t := by rw [hs]; exact List.mem_cons_of_mem _ h
        exact (ih seg this).trans (List.suffix_cons c t).isInfix

theorem splitOn_append (sep : Char) (b : GoString) :
    ∀ a : GoString, splitOn sep (a ++ sep :: b) = splitOn sep a ++ splitOn sep b := by
  intro a
  induction a with
  | nil => simp [splitOn]
  | cons c a ih =>
    obtain ⟨seg, rest, hs, _⟩ := splitOn_head sep a
    by_cases hc : c = sep
    · simp [splitOn, hc, ih]
    · simp [splitOn, hc, ih, hs]

theorem trimSpaces_part (s : GoString) : trimSpaces s <:+: s := by
  unfold trimSpaces
  have h1 : ((s.dropWhile (· = ' ')).reverse.dropWhile (· = ' ')).reverse
      <+: s.dropWhile (· = ' ') := by
    rw [← List.reverse_suffix, List.reverse_reverse]
    exact List.dropWhile_suffix _
  exact h1.isInfix.trans (List.dropWhile_suffix _).isInfix

/-- A cookie string without the text `Secure` has no `Secure` attribute. -/
theorem secureCount_eq_zero {c : GoString} (h : Contains c "Secure".toList = false) :
    secureCount c = 0 := by
  unfold secureCount cookieAttributes
  rw [List.count_eq_zero]
  intro hmem
  obtain ⟨seg, hseg, htrim⟩ := List.mem_map.mp hmem
  have h1 : trimSpaces seg <:+: c := (trimSpaces_part seg).trans (splitOn_part ';' c seg hseg)
  rw [htrim] at h1
  exact Contains_eq_false_iff.mp h h1

theorem secureCount_append (a b : GoString) :
    secureCount (a ++ ';' :: b) = secureCount a + secureCount b := by
  unfold secureCount cookieAttributes
  rw [splitOn_append, List.map_append, List.count_append]

/-- No `Secure` text is created by the `Domain=` step. -/
theorem domainStep_no_Secure {c : GoString} (h : Contains c "Secure".toList = false) :
    Contains (domainStep c) "Secure".toList = false := by
  unfold domainStep
  exact Contains_ReplaceAll_false (f := 'D') (x := 'S') (o := "omain=.vritjobs.com".toList)
    (n := "omain=www.mydomain.com".toList) (q := "ecure".toList)
    (by decide) (by decide!) _ _ (Nat.le_refl _)
    (Or.inr (Contains_ReplaceAll_false (f := 'D') (x := 'S') (o := "omain=vritjobs.com".toList)
      (n := "omain=www.mydomain.com".toList) (q := "ecure".toList)
      (by decide) (by decide!) _ _ (Nat.le_refl _) (Or.inr h)))

/-- A cookie string without the text `Secure` gets exactly one `Secure`
attribute, and keeps exactly one when it is rewritten again. -/
theorem secureCount_twice {c : GoString} (h : Contains c "Secure".toList = false) :
    secureCount (rewriteCookie c) = 1 ∧ secureCount (rewriteCookie (rewriteCookie c)) = 1 := by
  have h3 : Contains (pathStep (domainStep c)) "Secure".toList = false :=
    pathStep_keeps_clean (x := 'S') (q := "ecure".toList) (by decide) (by decide) (by decide!)
      (by decide!) (domainStep_no_Secure h)
  have hr : rewriteCookie c = pathStep (domainStep c) ++ ';' :: " Secure".toList := by
    rw [rewriteCookie_eq, secureStep, if_neg (by rw [h3]; decide)]
    rfl
  have h4 : Contains (ReplaceAll (pathStep (domainStep c)) "Path=/".toList
      "Path=/hemanta/proxy/".toList) "Secure".toList = false :=
    Contains_ReplaceAll_false (f := 'P') (x := 'S') (o := "ath=/".toList)
      (n := "ath=/hemanta/proxy/".toList) (q := "ecure".toList) (by decide) (by decide!)
      _ _ (Nat.le_refl _) (Or.inr h3)
  constructor
  · rw [hr, secureCount_append, secureCount_eq_zero h3]
    decide
  · rw [rewriteCookie_twice, hr, ReplaceAll_append_barrier (by decide) (by decide),
      secureCount_append, secureCount_eq_zero h4]
    decide!

/-! ### Instances of a text after a substitution, in general -/

theorem straddles_suffix (q : GoString) :
    ∀ (a r : GoString), r ∈ straddles a q → r <:+ q := by
  intro a
  induction a with
  | nil => intro r h; simp [straddles] at h
  | cons c t ih =>
    intro r h
    rw [straddles, List.mem_append] at h
    rcases h with h | h
    · split at h
      · rw [List.mem_singleton] at h
        rw [h]
        exact List.drop_suffix _ _
      · simp at h
    · exact ih r h

/-- Prefixes carry back: when every end part of `q` that can begin `new` also
begins `old`, an end part of `q` that begins the rewritten text begins the
original text. -/
theorem isPrefixOf_of_ReplaceAll {old new q : GoString} (hne : old ≠ [])
    (h12 : ∀ r ∈ q.tails, (r.take new.length).isPrefixOf new = true → r.isPrefixOf old = true) :
    ∀ (s r : GoString), r <:+ q → r.isPrefixOf (ReplaceAll s old new) = true →
      r.isPrefixOf s = true := by
  intro s
  induction s with
  | nil =>
    intro r _ h
    rw [ReplaceAll_nil _ _ hne] at h
    exact h
  | cons c t ih =>
    intro r hr h
    cases hp : old.isPrefixOf (c :: t) with
    | true =>
      rw [ReplaceAll_of_isPrefixOf hne hp, isPrefixOf_append_split, Bool.and_eq_true] at h
      have h1 := h12 r ((List.mem_tails _ _).mpr hr) h.1
      exact List.isPrefixOf_iff_prefix.mpr
        ((List.isPrefixOf_iff_prefix.mp h1).trans (List.isPrefixOf_iff_prefix.mp hp))
    | false =>
      rw [ReplaceAll_cons_of_not_isPrefixOf hne hp] at h
      cases r with
      | nil => rfl
      | cons x r =>
        rw [List.isPrefixOf_cons₂, Bool.and_eq_true] at h ⊢
        exact ⟨h.1, ih r ((List.suffix_cons x r).trans hr) h.2⟩

/-- No new instance, in general: when every end part of `q` that can begin
`new` also begins `old`, and every way for `q` to start inside `new` is a way
for it to start inside `old`, a text that contains `q` after the substitution
contained it before. -/
theorem Contains_of_ReplaceAll {old new q : GoString} (hne : old ≠ [])
    (h12 : ∀ r ∈ q.tails, (r.take new.length).isPrefixOf new = true → r.isPrefixOf old = true)
    (h3 : ∀ r ∈ straddles new q, r ∈ straddles old q) :
    ∀ (k : Nat) (s : GoString), s.length ≤ k →
      Contains (ReplaceAll s old new) q = true → Contains s q = true := by
  intro k
  induction k with
  | zero =>
    intro s hk h
    have hs : s = [] := List.length_eq_zero.mp (Nat.le_zero.mp hk)
    subst hs
    rw [ReplaceAll_nil _ _ hne] at h
    exact h
  | succ k ih =>
    intro s hk h
    cases s with
    | nil =>
      rw [ReplaceAll_nil _ _ hne] at h
      exact h
    | cons c t =>
      cases hp : old.isPrefixOf (c :: t) with
      | true =>
        have hsplit : old ++ (c :: t).drop old.length = c :: t :=
          List.prefix_iff_eq_append.mp (List.isPrefixOf_iff_prefix.mp hp)
        have hlen : ((c :: t).drop old.length).length ≤ k := by
          have hpos : 0 < old.length := List.length_pos.mpr hne
          simp only [List.length_drop, List.length_cons] at hk ⊢
          omega
        rw [ReplaceAll_of_isPrefixOf hne hp, Contains_append, Bool.or_eq_true] at h
        rw [← hsplit, Contains_append, Bool.or_eq_true]
        rcases h with h | h
        · obtain ⟨r, hr, hrp⟩ := List.any_eq_true.mp h
          have := isPrefixOf_of_ReplaceAll hne h12 _ r (straddles_suffix q new r hr) hrp
          exact Or.inl (List.any_eq_true.mpr ⟨r, h3 r hr, this⟩)
        · exact Or.inr (ih _ hlen h)
      | false =>
        have h' := h
        rw [ReplaceAll_cons_of_not_isPrefixOf hne hp, Contains_cons, Bool.or_eq_true] at h
        rw [Contains_cons, Bool.or_eq_true]
        rcases h with h | h
        · left
          rw [← ReplaceAll_cons_of_not_isPrefixOf hne hp] at h
          exact isPrefixOf_of_ReplaceAll hne h12 _ q (List.suffix_refl q) h
        · exact Or.inr (ih t (by simpa using hk) h)

theorem Contains_ReplaceAll_none {old new q s : GoString} (hne : old ≠ [])
    (h12 : ∀ r ∈ q.tails, (r.take new.length).isPrefixOf new = true → r.isPrefixOf old = true)
    (h3 : ∀ r ∈ straddles new q, r ∈ straddles old q) (hs : Contains s q = false) :
    Contains (ReplaceAll s old new) q = false := by
  cases h : Contains (ReplaceAll s old new) q with
  | false => rfl
  | true =>
    rw [Contains_of_ReplaceAll hne h12 h3 s.length s (Nat.le_refl _) h] at hs
    exact Bool.noConfusion hs

/-- No instance of `old` is left, in general: when every end part of `old`
that can begin `new` also begins `old`, and the text holds no instance of `old`
followed by what would complete a second one from inside `new`. -/
theorem Contains_ReplaceAll_self {old new : GoString} (hne : old ≠ [])
    (h12 : ∀ r ∈ old.tails, (r.take new.length).isPrefixOf new = true → r.isPrefixOf old = true) :
    ∀ (k : Nat) (s : GoString), s.length ≤ k →
      (∀ r ∈ straddles new old, Contains s (old ++ r) = false) →
      Contains (ReplaceAll s old new) old = false := by
  have hnil : old.isPrefixOf [] = false := by
    cases old with
    | nil => exact absurd rfl hne
    | cons x xs => rfl
  intro k
  induction k with
  | zero =>
    intro s hk _
    have hs : s = [] := List.length_eq_zero.mp (Nat.le_zero.mp hk)
    subst hs
    rw [ReplaceAll_nil _ _ hne, Contains_nil, hnil]
  | succ k ih =>
    intro s hk h
    cases s with
    | nil => rw [ReplaceAll_nil _ _ hne, Contains_nil, hnil]
    | cons c t =>
      cases hp : old.isPrefixOf (c :: t) with
      | true =>
        have hsplit : old ++ (c :: t).drop old.length = c :: t :=
          List.prefix_iff_eq_append.mp (List.isPrefixOf_iff_prefix.mp hp)
        have hlen : ((c :: t).drop old.length).length ≤ k := by
          have hpos : 0 < old.length := List.length_pos.mpr hne
          simp only [List.length_drop, List.length_cons] at hk ⊢
          omega
        rw [ReplaceAll_of_isPrefixOf hne hp, Contains_append,
          ih _ hlen (fun r hr => Contains_drop_false (h r hr) _), Bool.or_false,
          Bool.eq_false_iff]
        intro hany
        obtain ⟨r, hr, hrp⟩ := List.any_eq_true.mp hany
        have hpre := isPrefixOf_of_ReplaceAll hne h12 _ r (straddles_suffix old new r hr) hrp
        have hin : old ++ r <:+: c :: t := by
          rw [← hsplit]
          exact ((List.prefix_append_right_inj old).mpr
            (List.isPrefixOf_iff_prefix.mp hpre)).isInfix
        exact Contains_eq_false_iff.mp (h r hr) hin
      | false =>
        have ht : ∀ r ∈ straddles new old, Contains t (old ++ r) = false := by
          intro r hr
          have := h r hr
          rw [Contains_cons, Bool.or_eq_false_iff] at this
          exact this.2
        rw [ReplaceAll_cons_of_not_isPrefixOf hne hp, Contains_cons, ih t (by simpa using hk) ht,
          Bool.or_false, Bool.eq_false_iff]
        intro hpre
        rw [← ReplaceAll_cons_of_not_isPrefixOf hne hp] at hpre
        have := isPrefixOf_of_ReplaceAll hne h12 _ old (List.suffix_refl old) hpre
        rw [hp] at this
        exact Bool.noConfusion this

/-- A list of substitutions, none of which can create `q`, creates no `q`. -/
theorem applyRules_creates_none {q : GoString} :
    ∀ rules : List (GoString × GoString),
      (∀ r ∈ rules, r.1 ≠ [] ∧
        (∀ e ∈ q.tails, (e.take r.2.length).isPrefixOf r.2 = true → e.isPrefixOf r.1 = true) ∧
        (∀ e ∈ straddles r.2 q, e ∈ straddles r.1 q)) →
      ∀ s : GoString, Contains s q = false → Contains (applyRules rules s) q = false := by
  intro rules
  induction rules with
  | nil => intro _ s hs; exact hs
  | cons r rules ih =>
    intro h s hs
    have hr := h r (List.mem_cons_self _ _)
    rw [applyRules_cons]
    exact ih (fun r' hr' => h r' (List.mem_cons_of_mem _ hr')) _
      (Contains_ReplaceAll_none hr.1 hr.2.1 hr.2.2 hs)

/-! ### Upstream references after the body rewrite -/

theorem bodyRules_cons :
    bodyRules =
      ("https://vritjobs.com/".toList, "https://www.mydomain.com/hemanta/proxy/".toList) ::
        ("//vritjobs.com/".toList, "//www.mydomain.com/hemanta/proxy/".toList) ::
          bodyRules.drop 2 := rfl

/-- The first substitution leaves no absolute upstream reference. -/
theorem absolute_none_after_first (body : GoString) :
    Contains (ReplaceAll body "https://vritjobs.com/".toList
      "https://www.mydomain.com/hemanta/proxy/".toList) "https://vritjobs.com/".toList = false := by
  have hst : straddles "https://www.mydomain.com/hemanta/proxy/".toList
      "https://vritjobs.com/".toList = [] := by decide!
  apply Contains_ReplaceAll_self (by decide) (by decide!) body.length body (Nat.le_refl _)
  intro r hr
  rw [hst] at hr
  exact absurd hr (List.not_mem_nil r)

/-- None of the eight later substitutions can create an absolute upstream
reference. -/
theorem absolute_not_created :
    ∀ r ∈ bodyRules.drop 1, r.1 ≠ [] ∧
      (∀ e ∈ ("https://vritjobs.com/".toList).tails,
        (e.take r.2.length).isPrefixOf r.2 = true → e.isPrefixOf r.1 = true) ∧
      (∀ e ∈ straddles r.2 "https://vritjobs.com/".toList,
        e ∈ straddles r.1 "https://vritjobs.com/".toList) := by
  decide!

/-- None of the seven substitutions for attribute contexts can create a
protocol-relative upstream reference. -/
theorem protocol_relative_not_created :
    ∀ r ∈ bodyRules.drop 2, r.1 ≠ [] ∧
      (∀ e ∈ ("//vritjobs.com/".toList).tails,
        (e.take r.2.length).isPrefixOf r.2 = true → e.isPrefixOf r.1 = true) ∧
      (∀ e ∈ straddles r.2 "//vritjobs.com/".toList,
        e ∈ straddles r.1 "//vritjobs.com/".toList) := by
  decide!

/-- The first substitution cannot create the doubled text
`//vritjobs.com//vritjobs.com/`. -/
theorem doubled_not_created (body : GoString)
    (h : Contains body "//vritjobs.com//vritjobs.com/".toList = false) :
    Contains (ReplaceAll body "https://vritjobs.com/".toList
      "https://www.mydomain.com/hemanta/proxy/".toList)
      "//vritjobs.com//vritjobs.com/".toList = false :=
  Contains_ReplaceAll_none (by decide) (by decide!) (by decide!) h

/-- The second substitution leaves no protocol-relative upstream reference when
the text holds no doubled one. -/
theorem protocol_relative_none_after_second (s : GoString)
    (h : Contains s "//vritjobs.com//vritjobs.com/".toList = false) :
    Contains (ReplaceAll s "//vritjobs.com/".toList "//www.mydomain.com/hemanta/proxy/".toList)
      "//vritjobs.com/".toList = false := by
  have hst : straddles "//www.mydomain.com/hemanta/proxy/".toList "//vritjobs.com/".toList
      = ["/vritjobs.com/".toList] := by decide!
  apply Contains_ReplaceAll_self (by decide) (by decide!) s.length s (Nat.le_refl _)
  intro r hr
  rw [hst, List.mem_singleton] at hr
  rw [hr]
  exact h

/-! ### The cookie rewrite, segment by segment -/

theorem mem_ReplaceAll {old new : GoString} {x : Char} (hne : old ≠ []) :
    ∀ (k : Nat) (s : GoString), s.length ≤ k → x ∈ ReplaceAll s old new → x ∈ s ∨ x ∈ new := by
  intro k
  induction k with
  | zero =>
    intro s hk h
    have hs : s = [] := List.length_eq_zero.mp (Nat.le_zero.mp hk)
    subst hs
    rw [ReplaceAll_nil _ _ hne] at h
    exact Or.inl h
  | succ k ih =>
    intro s hk h
    cases s with
    | nil =>
      rw [ReplaceAll_nil _ _ hne] at h
      exact Or.inl h
    | cons c t =>
      cases hp : old.isPrefixOf (c :: t) with
      | true =>
        have hlen : ((c :: t).drop old.length).length ≤ k := by
          have hpos : 0 < old.length := List.length_pos.mpr hne
          simp only [List.length_drop, List.length_cons] at hk ⊢
          omega
        rw [ReplaceAll_of_isPrefixOf hne hp, List.mem_append] at h
        rcases h with h | h
        · exact Or.inr h
        · rcases ih _ hlen h with h | h
          · exact Or.inl (List.mem_of_mem_drop h)
          · exact Or.inr h
      | false =>
        rw [ReplaceAll_cons_of_not_isPrefixOf hne hp, List.mem_cons] at h
        rcases h with h | h
        · exact Or.inl (by rw [h]; exact List.mem_cons_self _ _)
        · rcases ih t (by simpa using hk) h with h | h
          · exact Or.inl (List.mem_cons_of_mem _ h)
          · exact Or.inr h

theorem splitOn_of_not_mem {sep : Char} :
    ∀ {s : GoString}, sep ∉ s → splitOn sep s = [s] := by
  intro s
  induction s with
  | nil => intro _; rfl
  | cons c t ih =>
    intro h
    have hc : c ≠ sep := fun e => h (by rw [e]; exact List.mem_cons_self _ _)
    have ht : sep ∉ t := fun e => h (List.mem_cons_of_mem _ e)
    simp [splitOn, hc, ih ht]

/-- A text is free of the separator, or has a first separator. -/
theorem first_separator (sep : Char) :
    ∀ s : GoString, sep ∉ s ∨ ∃ a b, s = a ++ sep :: b ∧ sep ∉ a := by
  intro s
  induction s with
  | nil => exact Or.inl (List.not_mem_nil _)
  | cons c t ih =>
    by_cases hc : c = sep
    · exact Or.inr ⟨[], t, by rw [hc]; rfl, List.not_mem_nil _⟩
    · rcases ih with h | ⟨a, b, hs, ha⟩
      · left
        intro hm
        rcases List.mem_cons.mp hm with e | e
        · exact hc e.symm
        · exact h e
      · right
        refine ⟨c :: a, b, by rw [hs]; rfl, ?_⟩
        intro hm
        rcases List.mem_cons.mp hm with e | e
        · exact hc e.symm
        · exact ha e

/-- A substitution whose texts are free of the separator acts on every segment
by itself. -/
theorem splitOn_ReplaceAll {sep : Char} {old new : GoString} (hne : old ≠ [])
    (ho : sep ∉ old) (hn : sep ∉ new) :
    ∀ (k : Nat) (s : GoString), s.length ≤ k →
      splitOn sep (ReplaceAll s old new) =
        (splitOn sep s).map (fun seg => ReplaceAll seg old new) := by
  have hfree : ∀ a : GoString, sep ∉ a → sep ∉ ReplaceAll a old new := by
    intro a ha hm
    rcases mem_ReplaceAll hne a.length a (Nat.le_refl _) hm with h | h
    · exact ha h
    · exact hn h
  intro k
  induction k with
  | zero =>
    intro s hk
    have hs : s = [] := List.length_eq_zero.mp (Nat.le_zero.mp hk)
    subst hs
    rw [ReplaceAll_nil _ _ hne]
    simp [splitOn, ReplaceAll_nil _ _ hne]
  | succ k ih =>
    intro s hk
    rcases first_separator sep s with h | ⟨a, b, hs, ha⟩
    · rw [splitOn_of_not_mem h, splitOn_of_not_mem (hfree s h)]
      rfl
    · subst hs
      have hb : b.length ≤ k := by
        simp only [List.length_append, List.length_cons] at hk
        omega
      rw [ReplaceAll_append_barrier hne ho, splitOn_append, splitOn_append,
        splitOn_of_not_mem ha, splitOn_of_not_mem (hfree a ha), ih b hb]
      rfl

/-- Leading elements that do not occur in `old` are copied. -/
theorem ReplaceAll_pad_left {old new : GoString} (hne : old ≠ []) :
    ∀ (sp x : GoString), (∀ ch ∈ sp, ch ∉ old) →
      ReplaceAll (sp ++ x) old new = sp ++ ReplaceAll x old new := by
  intro sp
  induction sp with
  | nil => intro x _; rfl
  | cons c sp ih =>
    intro x h
    have hc := h c (List.mem_cons_self _ _)
    have := @ReplaceAll_append_barrier old new c hne hc [] (sp ++ x)
    rw [List.nil_append, ReplaceAll_nil _ _ hne, List.nil_append] at this
    rw [List.cons_append, this, ih x (fun ch hch => h ch (List.mem_cons_of_mem _ hch))]
    rfl

/-- Trailing elements that do not occur in `old` are copied. -/
theorem ReplaceAll_pad_right {old new : GoString} (hne : old ≠ []) (x : GoString) :
    ∀ (sp : GoString), (∀ ch ∈ sp, ch ∉ old) →
      ReplaceAll (x ++ sp) old new = ReplaceAll x old new ++ sp := by
  intro sp h
  cases sp with
  | nil => simp
  | cons c sp =>
    have hc := h c (List.mem_cons_self _ _)
    rw [ReplaceAll_append_barrier hne hc]
    have := @ReplaceAll_pad_left old new hne sp []
      (fun ch hch => h ch (List.mem_cons_of_mem _ hch))
    rw [List.append_nil, ReplaceAll_nil _ _ hne, List.append_nil] at this
    rw [this]

theorem Contains_domainStep_Path (c : GoString) :
    Contains (domainStep c) "Path=".toList = Contains c "Path=".toList := by
  unfold domainStep
  cases h : Contains c "Path=".toList with
  | false =>
    exact Contains_ReplaceAll_none (by decide) (by decide!) (by decide!)
      (Contains_ReplaceAll_none (by decide) (by decide!) (by decide!) h)
  | true =>
    exact Contains_ReplaceAll_true (f := 'D') (x := 'P') (o := "omain=.vritjobs.com".toList)
      (n := "omain=www.mydomain.com".toList) (q := "ath=".toList) (by decide)
      (Or.inr (by decide!)) _ _ (Nat.le_refl _)
      (Contains_ReplaceAll_true (f := 'D') (x := 'P') (o := "omain=vritjobs.com".toList)
        (n := "omain=www.mydomain.com".toList) (q := "ath=".toList) (by decide)
        (Or.inr (by decide!)) _ _ (Nat.le_refl _) h)

theorem splitOn_domainStep (c : GoString) :
    splitOn ';' (domainStep c) = (splitOn ';' c).map domainStep := by
  unfold domainStep
  rw [splitOn_ReplaceAll (by decide) (by decide) (by decide) _ _ (Nat.le_refl _),
    splitOn_ReplaceAll (by decide) (by decide) (by decide) _ _ (Nat.le_refl _), List.map_map]
  rfl

/-- The segments after the `Path=` step. -/
theorem splitOn_pathStep (c : GoString) :
    splitOn ';' (pathStep (domainStep c)) =
      (splitOn ';' c).map (rewriteSegment (Contains c "Path=".toList)) ++
        (if Contains c "Path=".toList = true then [] else [" Path=/hemanta/proxy/".toList]) := by
  unfold pathStep
  rw [Contains_domainStep_Path]
  cases h : Contains c "Path=".toList with
  | true =>
    rw [if_pos (rfl : true = true), if_pos (rfl : true = true), List.append_nil,
      splitOn_ReplaceAll (by decide) (by decide) (by decide) _ _ (Nat.le_refl _),
      splitOn_domainStep, List.map_map]
    rfl
  | false =>
    rw [if_neg Bool.false_ne_true, if_neg Bool.false_ne_true,
      show domainStep c ++ "; Path=/hemanta/proxy/".toList =
        domainStep c ++ ';' :: " Path=/hemanta/proxy/".toList from rfl,
      splitOn_append, splitOn_domainStep,
      show splitOn ';' " Path=/hemanta/proxy/".toList = [" Path=/hemanta/proxy/".toList]
        from by decide!]
    rfl

/-- The segments of the rewritten cookie: the rewritten segments of the
cookie, in order, and then the appended ones. -/
theorem splitOn_rewriteCookie (c : GoString) :
    splitOn ';' (rewriteCookie c) =
      (splitOn ';' c).map (rewriteSegment (Contains c "Path=".toList)) ++ addedSegments c := by
  rw [rewriteCookie_eq, secureStep, addedSegments]
  cases h : Contains (pathStep (domainStep c)) "Secure".toList with
  | true =>
    rw [if_pos (rfl : true = true), if_pos (rfl : true = true), List.append_nil,
      splitOn_pathStep]
  | false =>
    rw [if_neg Bool.false_ne_true, if_neg Bool.false_ne_true,
      show pathStep (domainStep c) ++ "; Secure".toList =
        pathStep (domainStep c) ++ ';' :: " Secure".toList from rfl,
      splitOn_append, splitOn_pathStep,
      show splitOn ';' " Secure".toList = [" Secure".toList] from by decide!,
      List.append_assoc]

theorem rewriteSegment_pad (b : Bool) (sp x sp' : GoString) (h : ∀ ch ∈ sp, ch = ' ')
    (h' : ∀ ch ∈ sp', ch = ' ') :
    rewriteSegment b (sp ++ x ++ sp') = sp ++ rewriteSegment b x ++ sp' := by
  have key : ∀ old : GoString, ' ' ∉ old → ∀ t : GoString, (∀ ch ∈ t, ch = ' ') →
      ∀ ch ∈ t, ch ∉ old := by
    intro old ho t ht ch hch
    rw [ht ch hch]
    exact ho
  have step : ∀ (old new y : GoString), old ≠ [] → ' ' ∉ old →
      ReplaceAll (sp ++ y ++ sp') old new = sp ++ ReplaceAll y old new ++ sp' := by
    intro old new y hne ho
    rw [ReplaceAll_pad_right hne _ sp' (key old ho sp' h'),
      ReplaceAll_pad_left hne sp y (key old ho sp h)]
  have hd : domainStep (sp ++ x ++ sp') = sp ++ domainStep x ++ sp' := by
    unfold domainStep
    rw [step _ _ _ (by decide) (by decide), step _ _ _ (by decide) (by decide)]
  unfold rewriteSegment
  cases b with
  | true =>
    rw [if_pos (rfl : true = true), if_pos (rfl : true = true), hd,
      step _ _ _ (by decide) (by decide)]
  | false => rw [if_neg Bool.false_ne_true, if_neg Bool.false_ne_true, hd]

/-- A segment without any of the three search texts is left as it is. -/
theorem rewriteSegment_unchanged (b : Bool) {seg : GoString}
    (h1 : ¬ "Domain=vritjobs.com".toList <:+: seg)
    (h2 : ¬ "Domain=.vritjobs.com".toList <:+: seg)
    (h3 : ¬ "Path=/".toList <:+: seg) : rewriteSegment b seg = seg := by
  have hd : domainStep seg = seg := by
    unfold domainStep
    rw [ReplaceAll_of_not_Contains (by decide) (Contains_eq_false_iff.mpr h1),
      ReplaceAll_of_not_Contains (by decide) (Contains_eq_false_iff.mpr h2)]
  unfold rewriteSegment
  cases b with
  | true =>
    rw [if_pos (rfl : true = true), hd,
      ReplaceAll_of_not_Contains (by decide) (Contains_eq_false_iff.mpr h3)]
  | false => rw [if_neg Bool.false_ne_true, hd]

/-! ### The body rewrite of `mvp.go` -/

/-- Where the two substitutions of `mvp.go` amount to host substitution: the
upstream host is the master host, or `//host` does not occur in the text that
the first substitution writes. -/
theorem Mvp.rewriteBody_host_substitution (m s h p : GoString)
    (hp : ¬ ("//".toList ++ h) <:+: p)
    (hm : h = m ∨ ¬ ("//".toList ++ h) <:+: ("//".toList ++ m ++ p)) :
    Mvp.rewriteBody m s h (s ++ "://".toList ++ h ++ p) = "http://".toList ++ m ++ p := by
  have hup : s ++ "://".toList ++ h ≠ [] := by simp
  have hQ : "//".toList ++ h ≠ [] := by simp
  have hpre : (s ++ "://".toList ++ h).isPrefixOf (s ++ "://".toList ++ h ++ p) = true :=
    List.isPrefixOf_iff_prefix.mpr (List.prefix_append _ _)
  have hin : ("//".toList ++ h) <:+: (s ++ "://".toList ++ h) :=
    ⟨s ++ ":".toList, [], by simp⟩
  have h1 : ReplaceAll (s ++ "://".toList ++ h ++ p) (s ++ "://".toList ++ h)
      ("http://".toList ++ m) = "http://".toList ++ m ++ p := by
    rw [ReplaceAll_of_isPrefixOf hup hpre, List.drop_left,
      ReplaceAll_of_not_Contains hup (Contains_false_of_part hp hin)]
  unfold Mvp.rewriteBody
  simp only
  rw [h1]
  rcases hm with hm | hm
  · rw [hm, ReplaceAll_eq _ _ _ (by simp), if_pos rfl]
  · apply ReplaceAll_of_not_Contains hQ
    have hst : straddles "http:".toList ("//".toList ++ h) = [] := by
      simp [straddles, List.isPrefixOf]
    have e : "http://".toList ++ m ++ p = "http:".toList ++ ("//".toList ++ m ++ p) := by simp
    rw [e, Contains_append, hst, Contains_eq_false_iff.mpr hm]
    rfl

/-! ### Protocol-relative references inside attributes -/

/-- What the body rewrite makes of a protocol-relative upstream reference in
an `href`, `src` or `action` attribute, for every path without `/`: the text
that the second substitution writes is matched by the substitution for the
attribute, which puts `/hemanta/proxy` in front of `//www.mydomain.com`. -/
theorem rewriteBody_protocol_relative_attribute {ctx p : GoString}
    (hctx : ctx ∈ ["href=\"".toList, "src=\"".toList, "action=\"".toList]) (hp : '/' ∉ p) :
    rewriteBody (ctx ++ "//vritjobs.com/".toList ++ p ++ "\"".toList) =
      ctx ++ "/hemanta/proxy//www.mydomain.com/hemanta/proxy/".toList ++ p ++ "\"".toList := by
  have hs : '/' ∉ p ++ "\"".toList := by
    intro h
    rcases List.mem_append.mp h with h | h
    · exact hp h
    · exact absurd h (by decide)
  have key : rewriteBody (ctx ++ "//vritjobs.com/".toList) =
      ctx ++ "/hemanta/proxy//www.mydomain.com/hemanta/proxy/".toList := by
    simp only [List.mem_cons, List.mem_singleton, List.not_mem_nil, or_false] at hctx
    rcases hctx with h | h | h <;> subst h <;> decide!
  rw [List.append_assoc, rewriteBody_append_tail hs, key]
  simp only [List.append_assoc]

/-! ### The request hook -/

/-- What the director makes of a request: the path by three cases (the prefix
`/hemanta/proxy` is stripped, a non-empty other path is kept, an empty path or
an empty rest becomes `/`), and scheme, host, `Host` and query. -/
theorem Director_outcome (req : Request) :
    (∀ s : GoString, req.URL.Path = "/hemanta/proxy".toList ++ s →
      (Director req).URL.Path = if s = [] then "/".toList else s) ∧
    (¬ "/hemanta/proxy".toList <+: req.URL.Path → req.URL.Path ≠ [] →
      (Director req).URL.Path = req.URL.Path) ∧
    (req.URL.Path = [] → (Director req).URL.Path = "/".toList) ∧
    (Director req).URL.Scheme = "https".toList ∧
    (Director req).URL.Host = "vritjobs.com".toList ∧
    (Director req).Host = "vritjobs.com".toList ∧
    (Director req).URL.RawQuery = req.URL.RawQuery := by
  have hb : basePath = "/hemanta/proxy".toList := rfl
  refine ⟨?_, ?_, ?_, rfl, rfl, rfl, ?_⟩
  · intro s hs
    have hp : ("/hemanta/proxy".toList).isPrefixOf ("/hemanta/proxy".toList ++ s) = true :=
      List.isPrefixOf_iff_prefix.mpr (List.prefix_append _ _)
    show (if TrimPrefix req.URL.Path basePath = [] then "/".toList
      else TrimPrefix req.URL.Path basePath) = _
    rw [hs, hb, TrimPrefix, HasPrefix, hp, if_pos rfl, List.drop_left]
  · intro hp hne
    show (if TrimPrefix req.URL.Path basePath = [] then "/".toList
      else TrimPrefix req.URL.Path basePath) = _
    have ht : TrimPrefix req.URL.Path basePath = req.URL.Path := by
      rw [hb, TrimPrefix, HasPrefix, if_neg (by simpa using hp)]
    rw [ht, if_neg hne]
  · intro he
    show (if TrimPrefix req.URL.Path basePath = [] then "/".toList
      else TrimPrefix req.URL.Path basePath) = _
    rw [he]
    rfl
  · show (if targetURL.RawQuery = [] ∨ req.URL.RawQuery = []
      then targetURL.RawQuery ++ req.URL.RawQuery
      else targetURL.RawQuery ++ "&".toList ++ req.URL.RawQuery) = _
    have hq : targetURL.RawQuery = [] := rfl
    rw [hq]
    simp

/-! ### The `Path=` step, for every cookie -/

/-- What the cookie loop does for the path, in terms of the text `Path=`: when
`c` does not contain it, `; Path=/hemanta/proxy/` is appended (after the
`Domain=` substitutions, and before a `; Secure` if one is added); when `c`
contains it, the segments of the rewritten cookie are the rewritten segments of
`c`, with at most a `Secure` appended and no `Path`, and a segment that is the
attribute `Path=/`, with spaces around it or not, becomes
`Path=/hemanta/proxy/`; in both cases the rewritten cookie contains the text
`Path=`. -/
theorem rewriteCookie_Path_text (c : GoString) :
    (¬ "Path=".toList <:+: c →
      ∃ tail : GoString, (tail = [] ∨ tail = "; Secure".toList) ∧
        rewriteCookie c = domainStep c ++ "; Path=/hemanta/proxy/".toList ++ tail) ∧
    ("Path=".toList <:+: c →
      ∃ added : List GoString, (added = [] ∨ added = [" Secure".toList]) ∧
        splitOn ';' (rewriteCookie c) = (splitOn ';' c).map (rewriteSegment true) ++ added) ∧
    (∀ sp sp' : GoString, (∀ ch ∈ sp, ch = ' ') → (∀ ch ∈ sp', ch = ' ') →
      rewriteSegment true (sp ++ "Path=/".toList ++ sp') =
        sp ++ "Path=/hemanta/proxy/".toList ++ sp') ∧
    "Path=".toList <:+: rewriteCookie c := by
  refine ⟨?_, ?_, ?_, ?_⟩
  · intro h
    have hc : Contains (domainStep c) "Path=".toList = false := by
      rw [Contains_domainStep_Path]
      exact Contains_eq_false_iff.mpr h
    have hp : pathStep (domainStep c) = domainStep c ++ "; Path=/hemanta/proxy/".toList := by
      rw [pathStep, hc, if_neg Bool.false_ne_true]
    rw [rewriteCookie_eq, hp, secureStep]
    split
    · exact ⟨[], Or.inl rfl, (List.append_nil _).symm⟩
    · exact ⟨"; Secure".toList, Or.inr rfl, rfl⟩
  · intro h
    have hc : Contains c "Path=".toList = true := Contains_iff_occurs.mpr h
    rw [splitOn_rewriteCookie, hc, addedSegments, hc, if_pos (rfl : true = true), List.nil_append]
    split
    · exact ⟨[], Or.inl rfl, rfl⟩
    · exact ⟨[" Secure".toList], Or.inr rfl, rfl⟩
  · intro sp sp' h h'
    rw [rewriteSegment_pad true sp _ sp' h h']
    have : rewriteSegment true "Path=/".toList = "Path=/hemanta/proxy/".toList := by decide!
    rw [this]
  · exact Contains_iff_occurs.mp (rewriteCookie_shape c).2.2.1

/-! ### The number of `Secure` attributes -/

/-- C1: for every response with `Location` value `loc` (empty or not), the
`Location` value after `ModifyResponse` is given by three cases: when `loc` is
`https://vritjobs.com` followed by `s` it is
`https://www.mydomain.com/hemanta/proxy` followed by the same `s` (only the
leading origin is replaced); otherwise, when `loc` starts with `/`, it is
`/hemanta/proxy` followed by `loc`; otherwise it is `loc`. -/
theorem C1_location_three_cases (resp : Response) :
    (∀ s : GoString, resp.Header.Get "Location" = "https://vritjobs.com".toList ++ s →
      (ModifyResponse resp).1.Header.Get "Location" =
        "https://www.mydomain.com/hemanta/proxy".toList ++ s) ∧
    (¬ "https://vritjobs.com".toList <+: resp.Header.Get "Location" →
      "/".toList <+: resp.Header.Get "Location" →
      (ModifyResponse resp).1.Header.Get "Location" =
        "/hemanta/proxy".toList ++ resp.Header.Get "Location") ∧
    (¬ "https://vritjobs.com".toList <+: resp.Header.Get "Location" →
      ¬ "/".toList <+: resp.Header.Get "Location" →
      (ModifyResponse resp).1.Header.Get "Location" = resp.Header.Get "Location") := by
  rw [ModifyResponse_Location]
  refine ⟨?_, ?_, ?_⟩
  · intro s hs
    rw [hs, rewriteLocation_upstream]
  · intro h1 h2
    exact rewriteLocation_root h1 h2
  · intro h1 h2
    exact rewriteLocation_other h1 h2

/-- C1, the example of the specification: `https://vritjobs.com/jobs/42` becomes
`https://www.mydomain.com/hemanta/proxy/jobs/42`. -/
theorem C1_location_three_cases_witness :
    redirectResponse.Header.Get "Location" = "https://vritjobs.com".toList ++ "/jobs/42".toList ∧
    (ModifyResponse redirectResponse).1.Header.Get "Location" =
      "https://www.mydomain.com/hemanta/proxy".toList ++ "/jobs/42".toList :=
  ⟨by decide, (C1_location_three_cases redirectResponse).1 "/jobs/42".toList (by decide)⟩

/-- C2: for every name/value part `nv` that contains none of `Domain=`, `Path=`
and `Secure`, the cookie rewrite maps `nv; Domain=vritjobs.com; Path=/` to
`nv; Domain=www.mydomain.com; Path=/hemanta/proxy/; Secure`, for the value and
for a response that carries it as its `Set-Cookie` header. -/
theorem C2_cookie_example (nv : GoString) (h1 : ¬ "Domain=".toList <:+: nv)
    (h2 : ¬ "Path=".toList <:+: nv) (h3 : ¬ "Secure".toList <:+: nv) :
    rewriteCookie (nv ++ "; Domain=vritjobs.com; Path=/".toList) =
      nv ++ "; Domain=www.mydomain.com; Path=/hemanta/proxy/; Secure".toList ∧
    ∀ resp : Response,
      resp.Header.Values "Set-Cookie" = [nv ++ "; Domain=vritjobs.com; Path=/".toList] →
      (ModifyResponse resp).1.Header.Values "Set-Cookie" =
        [nv ++ "; Domain=www.mydomain.com; Path=/hemanta/proxy/; Secure".toList] := by
  have key : rewriteCookie (nv ++ "; Domain=vritjobs.com; Path=/".toList) =
      nv ++ "; Domain=www.mydomain.com; Path=/hemanta/proxy/; Secure".toList := by
    have d1 : Contains nv "Domain=vritjobs.com".toList = false :=
      Contains_false_of_part h1 (by decide)
    have d2 : Contains nv "Domain=.vritjobs.com".toList = false :=
      Contains_false_of_part h1 (by decide)
    have p1 : Contains nv "Path=".toList = false := Contains_false_of_part h2 (by decide)
    have p2 : Contains nv "Path=/".toList = false := Contains_false_of_part h2 (by decide)
    have s1 : Contains nv "Secure".toList = false := Contains_false_of_part h3 (by decide)
    rw [rewriteCookie_eq]
    unfold secureStep pathStep domainStep
    have e0 : nv ++ "; Domain=vritjobs.com; Path=/".toList =
        nv ++ ';' :: " Domain=vritjobs.com; Path=/".toList := rfl
    rw [e0, ReplaceAll_keep_left (by decide) (by decide) d1,
      show ReplaceAll " Domain=vritjobs.com; Path=/".toList "Domain=vritjobs.com".toList
        "Domain=www.mydomain.com".toList = " Domain=www.mydomain.com; Path=/".toList by decide,
      ReplaceAll_keep_left (by decide) (by decide) d2,
      show ReplaceAll " Domain=www.mydomain.com; Path=/".toList "Domain=.vritjobs.com".toList
        "Domain=www.mydomain.com".toList = " Domain=www.mydomain.com; Path=/".toList by decide]
    have c1 : Contains (nv ++ ';' :: " Domain=www.mydomain.com; Path=/".toList) "Path=".toList
        = true := by
      rw [Contains_append_barrier (by decide), p1]
      decide
    simp only [c1, if_true]
    rw [ReplaceAll_keep_left (by decide) (by decide) p2,
      show ReplaceAll " Domain=www.mydomain.com; Path=/".toList "Path=/".toList
        "Path=/hemanta/proxy/".toList = " Domain=www.mydomain.com; Path=/hemanta/proxy/".toList
        by decide]
    have c2 : Contains (nv ++ ';' :: " Domain=www.mydomain.com; Path=/hemanta/proxy/".toList)
        "Secure".toList = false := by
      rw [Contains_append_barrier (by decide), s1]
      decide
    simp only [c2, Bool.false_eq_true, if_false]
    rw [List.append_assoc]
    rfl
  refine ⟨key, ?_⟩
  intro resp hresp
  rw [ModifyResponse_SetCookie, hresp, List.map_singleton, key]

/-- C2, the example of the specification: `nv` is `session=abc`. -/
theorem C2_cookie_example_witness :
    (¬ "Domain=".toList <:+: "session=abc".toList) ∧
    (¬ "Path=".toList <:+: "session=abc".toList) ∧
    (¬ "Secure".toList <:+: "session=abc".toList) ∧
    rewriteCookie ("session=abc".toList ++ "; Domain=vritjobs.com; Path=/".toList) =
      "session=abc".toList ++ "; Domain=www.mydomain.com; Path=/hemanta/proxy/; Secure".toList :=
  ⟨by decide, by decide, by decide,
    (C2_cookie_example "session=abc".toList (by decide) (by decide) (by decide)).1⟩

/-- C3: for every list of references `(ctx, x)`, each with `ctx` one of the
seven eligible attribute contexts and `x` made only of letters and digits, the
body rewrite of the concatenated fragments `<a ctx/x">` (like `<a href="/x">`)
is the concatenation of the same fragments with every reference prefixed
(`<a href="/hemanta/proxy/x">`): all of them are rewritten and nothing else
changes, for any number of references. -/
theorem C3_root_relative_references (refs : List (GoString × GoString))
    (h : ∀ r ∈ refs, r.1 ∈ attributeContexts ∧ r.2.all Char.isAlphanum = true) :
    rewriteBody ((refs.map (fun r => fragment r.1 r.2)).flatten) =
      (refs.map (fun r => prefixedFragment r.1 r.2)).flatten := by
  induction refs with
  | nil => decide!
  | cons r rs ih =>
    have hr := h r (List.mem_cons_self _ _)
    rw [List.map_cons, List.flatten_cons, List.map_cons, List.flatten_cons,
      rewriteBody_fragment hr.1 hr.2, ih (fun r' hr' => h r' (List.mem_cons_of_mem _ hr'))]

/-- C3, the example of the specification and a body with three references:
`<a href="/apply">` becomes `<a href="/hemanta/proxy/apply">`. -/
theorem C3_root_relative_references_witness :
    (∀ r ∈ [("href=\"".toList, "apply".toList)],
      r.1 ∈ attributeContexts ∧ r.2.all Char.isAlphanum = true) ∧
    rewriteBody "<a href=\"/apply\">".toList = "<a href=\"/hemanta/proxy/apply\">".toList ∧
    rewriteBody "<a href=\"/a\"><a src=\"/b2\"><a url('/c\">".toList =
      "<a href=\"/hemanta/proxy/a\"><a src=\"/hemanta/proxy/b2\"><a url('/hemanta/proxy/c\">".toList :=
  ⟨by decide,
    C3_root_relative_references [("href=\"".toList, "apply".toList)] (by decide),
    C3_root_relative_references
      [("href=\"".toList, "a".toList), ("src=\"".toList, "b2".toList), ("url('".toList, "c".toList)]
      (by decide)⟩

/-- C4: for every request that reaches the director, which `main.go` 168-174
serves through the default mux, so with a non-empty path: an inbound path
`/hemanta/proxy` followed by `s` is forwarded with path `s`, or `/` when `s` is
empty; an inbound path that does not start with `/hemanta/proxy` is forwarded
unchanged; in every case the outbound scheme, host and `Host` header are
`https`, `vritjobs.com`, `vritjobs.com`, and the query string is unchanged. -/
theorem C4_director (req : Request) (hne : req.URL.Path ≠ []) :
    (∀ s : GoString, req.URL.Path = "/hemanta/proxy".toList ++ s →
      (Director req).URL.Path = if s = [] then "/".toList else s) ∧
    (¬ "/hemanta/proxy".toList <+: req.URL.Path →
      (Director req).URL.Path = req.URL.Path) ∧
    (Director req).URL.Scheme = "https".toList ∧
    (Director req).URL.Host = "vritjobs.com".toList ∧
    (Director req).Host = "vritjobs.com".toList ∧
    (Director req).URL.RawQuery = req.URL.RawQuery := by
  obtain ⟨h1, h2, _, h4, h5, h6, h7⟩ := Director_outcome req
  exact ⟨h1, fun hp => h2 hp hne, h4, h5, h6, h7⟩

/-- C4, the example of the specification: `/hemanta/proxy/jobs?x=1` is
forwarded as `/jobs?x=1` with `Host: vritjobs.com`. -/
theorem C4_director_witness :
    jobsRequest.URL.Path ≠ [] ∧
    jobsRequest.URL.Path = "/hemanta/proxy".toList ++ "/jobs".toList ∧
    (Director jobsRequest).URL.Path = "/jobs".toList ∧
    (Director jobsRequest).URL.RawQuery = "x=1".toList ∧
    (Director jobsRequest).Host = "vritjobs.com".toList :=
  ⟨by decide, by decide, (C4_director jobsRequest (by decide)).1 "/jobs".toList (by decide),
    (C4_director jobsRequest (by decide)).2.2.2.2.2, (C4_director jobsRequest (by decide)).2.2.2.2.1⟩

/-- C5: for every response whose `Content-Type` is accepted for rewriting and
whose body is read in full, `ModifyResponse` returns no error, installs the
rewritten body, and both the `ContentLength` field and the decimal value of the
`Content-Length` header equal the byte length of that installed body. -/
theorem C5_content_length (resp : Response)
    (hct : isRewritable (resp.Header.Get "Content-Type") = true)
    (hread : resp.Body.err = none) :
    (ModifyResponse resp).2 = none ∧
    (ModifyResponse resp).1.Body = NopCloser (rewriteBody resp.Body.data) ∧
    (ModifyResponse resp).1.ContentLength = ((ModifyResponse resp).1.Body.data.length : Int) ∧
    decimalValue ((ModifyResponse resp).1.Header.Get "Content-Length") =
      some (ModifyResponse resp).1.Body.data.length := by
  rw [ModifyResponse_rewritten resp hct hread]
  refine ⟨rfl, rfl, rfl, ?_⟩
  show decimalValue (Header.Get (Header.Set _ "Content-Length" _) "Content-Length") = _
  simp only [Header.Get, Header.Set, if_true, List.headD_cons]
  exact decimalValue_Itoa _

/-- C5 on an HTML page: the installed body has 31 bytes, the field is 31 and
the header reads `31`. -/
theorem C5_content_length_witness :
    isRewritable (htmlResponse.Header.Get "Content-Type") = true ∧
    htmlResponse.Body.err = none ∧
    (ModifyResponse htmlResponse).1.Body.data = "<a href=\"/hemanta/proxy/apply\">".toList ∧
    (ModifyResponse htmlResponse).1.ContentLength = 31 ∧
    (ModifyResponse htmlResponse).1.Header.Get "Content-Length" = "31".toList ∧
    decimalValue ((ModifyResponse htmlResponse).1.Header.Get "Content-Length") =
      some (ModifyResponse htmlResponse).1.Body.data.length :=
  ⟨by decide!, rfl, by decide!, by decide!, by decide!,
    (C5_content_length htmlResponse (by decide!) rfl).2.2.2⟩

/-- C6: for every response whose `Content-Type` value contains none of
`text/html`, `text/css`, `javascript` and `application/json` (an absent header
reads as the empty value), `ModifyResponse` returns no error and leaves the
body, the `ContentLength` field and the `Content-Length` header as they were,
whatever the body holds; and for every `Content-Type` value that contains one
of the four, with or without parameters, the substitutions are applied to the
body that was read. -/
theorem C6_content_type_gate (resp : Response) :
    (¬ "text/html".toList <:+: resp.Header.Get "Content-Type" →
      ¬ "text/css".toList <:+: resp.Header.Get "Content-Type" →
      ¬ "javascript".toList <:+: resp.Header.Get "Content-Type" →
      ¬ "application/json".toList <:+: resp.Header.Get "Content-Type" →
        (ModifyResponse resp).2 = none ∧
        (ModifyResponse resp).1.Body = resp.Body ∧
        (ModifyResponse resp).1.ContentLength = resp.ContentLength ∧
        (ModifyResponse resp).1.Header.Values "Content-Length" =
          resp.Header.Values "Content-Length") ∧
    (("text/html".toList <:+: resp.Header.Get "Content-Type" ∨
      "text/css".toList <:+: resp.Header.Get "Content-Type" ∨
      "javascript".toList <:+: resp.Header.Get "Content-Type" ∨
      "application/json".toList <:+: resp.Header.Get "Content-Type") →
      resp.Body.err = none →
        (ModifyResponse resp).2 = none ∧
        (ModifyResponse resp).1.Body.data = rewriteBody resp.Body.data) := by
  constructor
  · intro h1 h2 h3 h4
    rw [ModifyResponse_passthrough resp (isRewritable_eq_false h1 h2 h3 h4)]
    refine ⟨rfl, rfl, rfl, ?_⟩
    show fixCookies (fixLocation resp.Header) "Content-Length" = resp.Header "Content-Length"
    rw [fixCookies_other _ _ (by decide), fixLocation_other _ _ (by decide)]
  · intro h hread
    rw [ModifyResponse_rewritten resp (isRewritable_eq_true h) hread]
    exact ⟨rfl, rfl⟩

/-- C6 on an `image/png` response whose bytes contain `href="/apply"`, and on
an HTML page with a `charset` parameter. -/
theorem C6_content_type_gate_witness :
    (ModifyResponse imageResponse).1.Body = imageResponse.Body ∧
    (ModifyResponse imageResponse).1.ContentLength = imageResponse.ContentLength ∧
    (ModifyResponse htmlResponse).1.Body.data = rewriteBody htmlResponse.Body.data :=
  ⟨((C6_content_type_gate imageResponse).1 (by decide) (by decide) (by decide) (by decide)).2.1,
    ((C6_content_type_gate imageResponse).1 (by decide) (by decide) (by decide) (by decide)).2.2.1,
    ((C6_content_type_gate htmlResponse).2 (Or.inl (by decide)) rfl).2⟩

/-- C7, as stated, fails when the path-and-query text holds a reference of its
own: in `https://vritjobs.com/go?next=https://vritjobs.com/x` the URL in the
query is rewritten as well, so the result is not the public form of the origin
followed by the unchanged text. -/
theorem C7_query_is_rewritten_too :
    rewriteBody ("https://vritjobs.com/".toList ++ "go?next=https://vritjobs.com/x".toList) =
      "https://www.mydomain.com/hemanta/proxy/go?next=https://www.mydomain.com/hemanta/proxy/x".toList
    ∧
    rewriteBody ("https://vritjobs.com/".toList ++ "go?next=https://vritjobs.com/x".toList) ≠
      "https://www.mydomain.com/hemanta/proxy/".toList ++ "go?next=https://vritjobs.com/x".toList := by
  decide!

/-- C7, amended: for every text `p` that contains none of the nine search texts
of the body rewrite and does not begin with `/vritjobs.com/`, the body rewrite
of `https://vritjobs.com/` followed by `p` is exactly
`https://www.mydomain.com/hemanta/proxy/` followed by `p`, and the body rewrite
of that result returns it unchanged. -/
theorem C7_absolute_url (p : GoString) (hp : ∀ r ∈ bodyRules, ¬ r.1 <:+: p)
    (hs : ¬ "/vritjobs.com/".toList <+: p) :
    rewriteBody ("https://vritjobs.com/".toList ++ p) =
      "https://www.mydomain.com/hemanta/proxy/".toList ++ p ∧
    rewriteBody ("https://www.mydomain.com/hemanta/proxy/".toList ++ p) =
      "https://www.mydomain.com/hemanta/proxy/".toList ++ p := by
  have hfix := public_origin_no_instance hp hs
  have hb : bodyRules =
      ("https://vritjobs.com/".toList, "https://www.mydomain.com/hemanta/proxy/".toList)
        :: bodyRules.tail := rfl
  constructor
  · have h1 : ¬ "https://vritjobs.com/".toList <:+: p := hp _ (by rw [hb]; exact List.mem_cons_self _ _)
    have hpre : ("https://vritjobs.com/".toList).isPrefixOf ("https://vritjobs.com/".toList ++ p)
        = true := List.isPrefixOf_iff_prefix.mpr (List.prefix_append _ _)
    rw [rewriteBody_eq, hb, applyRules_cons]
    simp only
    rw [ReplaceAll_of_isPrefixOf (by decide) hpre, List.drop_left,
      ReplaceAll_of_not_Contains (by decide) (Contains_eq_false_iff.mpr h1)]
    exact applyRules_of_not_Contains _
      (fun r hr => hfix r (List.mem_of_mem_tail hr))
  · rw [rewriteBody_eq]
    exact applyRules_of_not_Contains _ hfix

/-- C7, amended, at the path `jobs/42?x=1`. -/
theorem C7_absolute_url_witness :
    (∀ r ∈ bodyRules, ¬ r.1 <:+: "jobs/42?x=1".toList) ∧
    (¬ "/vritjobs.com/".toList <+: "jobs/42?x=1".toList) ∧
    rewriteBody ("https://vritjobs.com/".toList ++ "jobs/42?x=1".toList) =
      "https://www.mydomain.com/hemanta/proxy/".toList ++ "jobs/42?x=1".toList ∧
    rewriteBody ("https://www.mydomain.com/hemanta/proxy/".toList ++ "jobs/42?x=1".toList) =
      "https://www.mydomain.com/hemanta/proxy/".toList ++ "jobs/42?x=1".toList :=
  ⟨by decide!, by decide!, C7_absolute_url "jobs/42?x=1".toList (by decide!) (by decide!)⟩

/-- C8: for every `Location` value that starts with the upstream origin
`https://vritjobs.com`, rewriting the rewritten value again changes nothing,
for the value itself and for a response that passes `ModifyResponse` twice. -/
theorem C8_location_idempotent (loc : GoString) (h : "https://vritjobs.com".toList <+: loc) :
    rewriteLocation (rewriteLocation loc) = rewriteLocation loc ∧
    ∀ resp : Response, resp.Header.Get "Location" = loc →
      (ModifyResponse (ModifyResponse resp).1).1.Header.Get "Location" =
        (ModifyResponse resp).1.Header.Get "Location" := by
  have key : rewriteLocation (rewriteLocation loc) = rewriteLocation loc := by
    obtain ⟨s, rfl⟩ := h
    rw [rewriteLocation_upstream]
    apply rewriteLocation_other
    · intro hp
      have := isPrefixOf_append_of_mismatch
        (q := "https://vritjobs.com".toList) (a := "https://www.mydomain.com/hemanta/proxy".toList)
        (by decide) s
      rw [List.isPrefixOf_iff_prefix.mpr hp] at this
      exact Bool.noConfusion this
    · intro hp
      have := isPrefixOf_append_of_mismatch
        (q := "/".toList) (a := "https://www.mydomain.com/hemanta/proxy".toList)
        (by decide) s
      rw [List.isPrefixOf_iff_prefix.mpr hp] at this
      exact Bool.noConfusion this
  refine ⟨key, ?_⟩
  intro resp hresp
  rw [ModifyResponse_Location, ModifyResponse_Location, hresp, key]

/-- C8 at the redirect `https://vritjobs.com/jobs/42`. -/
theorem C8_location_idempotent_witness :
    "https://vritjobs.com".toList <+: "https://vritjobs.com/jobs/42".toList ∧
    rewriteLocation (rewriteLocation "https://vritjobs.com/jobs/42".toList) =
      rewriteLocation "https://vritjobs.com/jobs/42".toList :=
  ⟨by decide, (C8_location_idempotent "https://vritjobs.com/jobs/42".toList (by decide)).1⟩

/-- C9 at the cookie `SecureToken=abc; Path=/`: the text `Secure` occurs in the
cookie name, so `ModifyResponse` appends nothing, and no attribute of the
rewritten cookie is equal to `Secure`. -/
theorem C9_secure_missing :
    (ModifyResponse secureNameResponse).1.Header.Values "Set-Cookie" =
      ["SecureToken=abc; Path=/hemanta/proxy/".toList] ∧
    rewriteCookie "SecureToken=abc; Path=/".toList =
      "SecureToken=abc; Path=/hemanta/proxy/".toList ∧
    cookieAttributes (rewriteCookie "SecureToken=abc; Path=/".toList) =
      ["SecureToken=abc".toList, "Path=/hemanta/proxy/".toList] ∧
    "Secure".toList ∉ cookieAttributes (rewriteCookie "SecureToken=abc; Path=/".toList) := by
  decide!

/-- C11 at the cookie `returnPath=/jobs`: it has no attribute that starts with
`Path=`, but the text `Path=` occurs in its name, so `ModifyResponse` appends no
`Path`, rewrites the value instead, and the rewritten cookie has no attribute
that starts with `Path=`. -/
theorem C11_path_text_in_value :
    attributesNamed "Path=".toList "returnPath=/jobs".toList = [] ∧
    rewriteCookie "returnPath=/jobs".toList = "returnPath=/hemanta/proxy/jobs; Secure".toList ∧
    (ModifyResponse returnPathResponse).1.Header.Values "Set-Cookie" =
      ["returnPath=/hemanta/proxy/jobs; Secure".toList] ∧
    attributesNamed "Path=".toList (rewriteCookie "returnPath=/jobs".toList) = [] := by
  decide!

/-- C12, as stated, fails for a value that only begins with the upstream host:
the `Domain` attribute of `a=b; Domain=vritjobs.com.au` has a value other than
`vritjobs.com` and `.vritjobs.com`, and it is changed, to
`Domain=www.mydomain.com.au`. -/
theorem C12_longer_domain_is_changed :
    attributesNamed "Domain=".toList "a=b; Domain=vritjobs.com.au".toList =
      ["Domain=vritjobs.com.au".toList] ∧
    attributesNamed "Domain=".toList (rewriteCookie "a=b; Domain=vritjobs.com.au".toList) =
      ["Domain=www.mydomain.com.au".toList] := by
  decide!

/-- C12, amended: for every cookie string `c`, the segments of the rewritten
cookie between `;` are the rewritten segments of `c`, in order, followed by the
appended ones; a segment that is the attribute `Domain=vritjobs.com` or
`Domain=.vritjobs.com`, with spaces around it or not, becomes
`Domain=www.mydomain.com`; and a segment that contains none of the texts
`Domain=vritjobs.com`, `Domain=.vritjobs.com` and `Path=/`, so every `Domain`
attribute whose value does not begin with the upstream host or its dotted form
and holds none of these texts, is left unchanged. -/
theorem C12_cookie_domain (c : GoString) :
    splitOn ';' (rewriteCookie c) =
      (splitOn ';' c).map (rewriteSegment (Contains c "Path=".toList)) ++ addedSegments c ∧
    (∀ (b : Bool) (sp sp' : GoString), (∀ ch ∈ sp, ch = ' ') → (∀ ch ∈ sp', ch = ' ') →
      rewriteSegment b (sp ++ "Domain=vritjobs.com".toList ++ sp') =
        sp ++ "Domain=www.mydomain.com".toList ++ sp' ∧
      rewriteSegment b (sp ++ "Domain=.vritjobs.com".toList ++ sp') =
        sp ++ "Domain=www.mydomain.com".toList ++ sp') ∧
    (∀ (b : Bool) (seg : GoString), ¬ "Domain=vritjobs.com".toList <:+: seg →
      ¬ "Domain=.vritjobs.com".toList <:+: seg → ¬ "Path=/".toList <:+: seg →
      rewriteSegment b seg = seg) := by
  refine ⟨splitOn_rewriteCookie c, ?_, ?_⟩
  · intro b sp sp' h h'
    rw [rewriteSegment_pad b sp _ sp' h h', rewriteSegment_pad b sp _ sp' h h']
    have e1 : rewriteSegment b "Domain=vritjobs.com".toList = "Domain=www.mydomain.com".toList := by
      cases b <;> decide!
    have e2 : rewriteSegment b "Domain=.vritjobs.com".toList = "Domain=www.mydomain.com".toList := by
      cases b <;> decide!
    rw [e1, e2]
    exact ⟨rfl, rfl⟩
  · intro b seg h1 h2 h3
    exact rewriteSegment_unchanged b h1 h2 h3

/-- C12, amended, on a cookie with the upstream host as its domain and on one
with a subdomain of it. -/
theorem C12_cookie_domain_witness :
    splitOn ';' (rewriteCookie "a=b; Domain=.vritjobs.com; Path=/x".toList) =
      ["a=b".toList, " Domain=www.mydomain.com".toList, " Path=/hemanta/proxy/x".toList,
        " Secure".toList] ∧
    rewriteSegment true " Domain=vritjobs.com".toList = " Domain=www.mydomain.com".toList ∧
    rewriteSegment true " Domain=jobs.vritjobs.com".toList = " Domain=jobs.vritjobs.com".toList :=
  ⟨(C12_cookie_domain "a=b; Domain=.vritjobs.com; Path=/x".toList).1.trans (by decide!),
    ((C12_cookie_domain []).2.1 true " ".toList [] (by decide) (by decide)).1,
    (C12_cookie_domain []).2.2 true " Domain=jobs.vritjobs.com".toList
      (by decide!) (by decide!) (by decide!)⟩

/-- C13: for every list of `Set-Cookie` values on the upstream response, the
values after `ModifyResponse` are the rewritten values, one for one and in the
same order (so the count is the same, no original value is left and none is
doubled); when there is none, there is none afterwards. -/
theorem C13_set_cookie_list (resp : Response) :
    (ModifyResponse resp).1.Header.Values "Set-Cookie" =
      (resp.Header.Values "Set-Cookie").map rewriteCookie ∧
    ((ModifyResponse resp).1.Header.Values "Set-Cookie").length =
      (resp.Header.Values "Set-Cookie").length ∧
    (resp.Header.Values "Set-Cookie" = [] →
      (ModifyResponse resp).1.Header.Values "Set-Cookie" = []) := by
  have key := ModifyResponse_SetCookie resp
  refine ⟨key, ?_, ?_⟩
  · rw [key, List.length_map]
  · intro h
    rw [key, h]
    rfl

/-- C13 on a response with three cookies. -/
theorem C13_set_cookie_list_witness :
    (ModifyResponse threeCookiesResponse).1.Header.Values "Set-Cookie" =
      ["session=abc; Domain=www.mydomain.com; Path=/hemanta/proxy/; Secure".toList,
        "theme=dark; Path=/hemanta/proxy/; Secure".toList,
        "lang=en; Secure; Path=/hemanta/proxy/".toList] :=
  (C13_set_cookie_list threeCookiesResponse).1.trans (by decide!)

/-- C14: for every eligible response whose body read ends with an error `e`,
after whatever part of the body, `ModifyResponse` returns `e` and installs
nothing: the body, the `ContentLength` field and the `Content-Length` header are
those of the upstream response. -/
theorem C14_read_error (resp : Response) (e : Error)
    (hct : isRewritable (resp.Header.Get "Content-Type") = true)
    (hread : resp.Body.err = some e) :
    (ModifyResponse resp).2 = some e ∧
    (ModifyResponse resp).1.Body = resp.Body ∧
    (ModifyResponse resp).1.ContentLength = resp.ContentLength ∧
    (ModifyResponse resp).1.Header.Values "Content-Length" =
      resp.Header.Values "Content-Length" := by
  rw [ModifyResponse_read_error resp hct e hread]
  refine ⟨rfl, rfl, rfl, ?_⟩
  show fixCookies (fixLocation resp.Header) "Content-Length" = resp.Header "Content-Length"
  rw [fixCookies_other _ _ (by decide), fixLocation_other _ _ (by decide)]

/-- C14 on an HTML page whose stream breaks after 13 bytes. -/
theorem C14_read_error_witness :
    isRewritable (brokenBodyResponse.Header.Get "Content-Type") = true ∧
    brokenBodyResponse.Body.err = some "unexpected EOF" ∧
    (ModifyResponse brokenBodyResponse).2 = some "unexpected EOF" ∧
    (ModifyResponse brokenBodyResponse).1.Body = brokenBodyResponse.Body ∧
    (ModifyResponse brokenBodyResponse).1.ContentLength = 18 :=
  ⟨by decide!, rfl,
    (C14_read_error brokenBodyResponse "unexpected EOF" (by decide!) rfl).1,
    (C14_read_error brokenBodyResponse "unexpected EOF" (by decide!) rfl).2.1,
    (C14_read_error brokenBodyResponse "unexpected EOF" (by decide!) rfl).2.2.1⟩

/-- C15 at `src="//vritjobs.com/app.js"` and with `href` and `action`: the
protocol-relative substitution writes `src="//www.mydomain.com/hemanta/proxy/`,
the substitution for `src="/` then matches that text, and the result starts
with `src="/hemanta/proxy//www.mydomain.com/`. -/
theorem C15_attribute_rule_matches_again :
    rewriteBody "src=\"//vritjobs.com/app.js\"".toList =
      "src=\"/hemanta/proxy//www.mydomain.com/hemanta/proxy/app.js\"".toList ∧
    rewriteBody "href=\"//vritjobs.com/app.js\"".toList =
      "href=\"/hemanta/proxy//www.mydomain.com/hemanta/proxy/app.js\"".toList ∧
    rewriteBody "action=\"//vritjobs.com/app.js\"".toList =
      "action=\"/hemanta/proxy//www.mydomain.com/hemanta/proxy/app.js\"".toList ∧
    rewriteBody "src=\"//vritjobs.com/app.js\"".toList ≠
      "src=\"//www.mydomain.com/hemanta/proxy/app.js\"".toList := by
  decide!

/-- C16, as stated, fails on a doubled reference: in
`//vritjobs.com//vritjobs.com/x` the second instance of `//vritjobs.com/`
begins with the last `/` of the first, only the first is replaced, and the
output still contains `//vritjobs.com/`. -/
theorem C16_doubled_reference_survives :
    rewriteBody "//vritjobs.com//vritjobs.com/x".toList =
      "//www.mydomain.com/hemanta/proxy//vritjobs.com/x".toList ∧
    "//vritjobs.com/".toList <:+: rewriteBody "//vritjobs.com//vritjobs.com/x".toList := by
  decide!

/-- C16, amended: for every body text that does not contain the doubled text
`//vritjobs.com//vritjobs.com/`, the output of the body rewrite contains no
instance of `//vritjobs.com/`. -/
theorem C16_no_protocol_relative_reference (body : GoString)
    (h : ¬ "//vritjobs.com//vritjobs.com/".toList <:+: body) :
    ¬ "//vritjobs.com/".toList <:+: rewriteBody body := by
  have h1 := doubled_not_created body (Contains_eq_false_iff.mpr h)
  have h2 := protocol_relative_none_after_second _ h1
  have h3 := applyRules_creates_none (bodyRules.drop 2) protocol_relative_not_created _ h2
  rw [rewriteBody_eq, bodyRules_cons, applyRules_cons, applyRules_cons]
  exact Contains_eq_false_iff.mp h3

/-- C16, amended, on a page with two protocol-relative upstream references. -/
theorem C16_no_protocol_relative_reference_witness :
    (¬ "//vritjobs.com//vritjobs.com/".toList <:+:
      "<img src=\"//vritjobs.com/a.png\"> see //vritjobs.com/jobs".toList) ∧
    ¬ "//vritjobs.com/".toList <:+:
      rewriteBody "<img src=\"//vritjobs.com/a.png\"> see //vritjobs.com/jobs".toList :=
  ⟨by decide!,
    C16_no_protocol_relative_reference
      "<img src=\"//vritjobs.com/a.png\"> see //vritjobs.com/jobs".toList (by decide!)⟩

/-- C17 with the default `-master localhost:7070` and `-target http://localhost`:
the path `/jobs` does not contain `//localhost`, the first substitution writes
`http://localhost:7070/jobs`, and the second one matches `//localhost` in that
text and writes the port once more. -/
theorem C17_second_rule_matches_first_output :
    ¬ ("//".toList ++ "localhost".toList) <:+: "/jobs".toList ∧
    Mvp.rewriteBody "localhost:7070".toList "http".toList "localhost".toList
        ("http".toList ++ "://".toList ++ "localhost".toList ++ "/jobs".toList) =
      "http://localhost:7070:7070/jobs".toList ∧
    Mvp.rewriteBody "localhost:7070".toList "http".toList "localhost".toList
        ("http".toList ++ "://".toList ++ "localhost".toList ++ "/jobs".toList) ≠
      "http://".toList ++ "localhost:7070".toList ++ "/jobs".toList := by
  decide!

/-- C18 at the inbound path `/hemanta/proxy2/jobs`: it begins with `/`, and the
path sent upstream is `2/jobs`, which does not. -/
theorem C18_sibling_path_loses_slash :
    "/".toList <+: siblingPathRequest.URL.Path ∧
    (Director siblingPathRequest).URL.Path = "2/jobs".toList ∧
    ¬ "/".toList <+: (Director siblingPathRequest).URL.Path := by
  decide!

/-- C19: for every body text, the text after the first substitution contains no
`https://vritjobs.com/`, the output of the body rewrite contains none, and so
the body that `ModifyResponse` installs for an eligible response that is read
in full contains none. -/
theorem C19_no_absolute_upstream_reference (body : GoString) :
    ¬ "https://vritjobs.com/".toList <:+:
      ReplaceAll body "https://vritjobs.com/".toList
        "https://www.mydomain.com/hemanta/proxy/".toList ∧
    ¬ "https://vritjobs.com/".toList <:+: rewriteBody body ∧
    ∀ resp : Response, isRewritable (resp.Header.Get "Content-Type") = true →
      resp.Body = { data := body, err := none } →
      ¬ "https://vritjobs.com/".toList <:+: (ModifyResponse resp).1.Body.data := by
  have h1 := absolute_none_after_first body
  have h2 : Contains (rewriteBody body) "https://vritjobs.com/".toList = false := by
    have := applyRules_creates_none (bodyRules.drop 1) absolute_not_created _ h1
    rw [rewriteBody_eq]
    exact this
  refine ⟨Contains_eq_false_iff.mp h1, Contains_eq_false_iff.mp h2, ?_⟩
  intro resp hct hbody
  have hread : resp.Body.err = none := by rw [hbody]
  have hdata : (ModifyResponse resp).1.Body.data = rewriteBody resp.Body.data := by
    rw [ModifyResponse_rewritten resp hct hread]
    simp only [NopCloser]
  rw [hdata, hbody]
  exact Contains_eq_false_iff.mp h2

/-- C19 on a page with an absolute upstream link inside a query. -/
theorem C19_no_absolute_upstream_reference_witness :
    ¬ "https://vritjobs.com/".toList <:+:
      rewriteBody "<a href=\"https://vritjobs.com/go?next=https://vritjobs.com/x\">".toList :=
  (C19_no_absolute_upstream_reference
    "<a href=\"https://vritjobs.com/go?next=https://vritjobs.com/x\">".toList).2.1

end GoReverseProxy
